import Mathlib

/-! # LoadBalance: server-selection strategies

A shallow embedding of `loadbalance.go` and proofs about it.

Conventions of the embedding.

* A Go closure that captures mutable variables becomes a step function
  `σ → Option (ρ × σ)`: it takes the captured state, and returns the value
  the call returns together with the state it leaves behind.
* `none` stands for a run-time panic (index out of range, integer division by
  zero, `rand.Intn` with a non-positive bound).
* Go's `int` has 32 or 64 bits. Where the source does arithmetic on weights
  (`SmoothWeightRoundRobin`, `WeigthRandom2`) or converts to `int`
  (`HashLoadBalance`), the definition takes the width `intBits` as a parameter
  and every result wraps around (`wrapInt`, `toInt`). Slice positions and
  lengths are natural numbers.
* The counts and totals of `LeastResponseTime` are exact integers; the only
  operation on them is a division, which cannot wrap when the count is
  positive.
* The value drawn by `rand.Intn` is an argument of the call.
-/

set_option autoImplicit false

namespace LoadBalance

/-! ## Machine integers -/

/-- The value a Go `int` of `intBits` bits holds after an operation whose
exact result is `x`: two's complement wrap-around into
`[-2^(intBits-1), 2^(intBits-1))`. -/
def wrapInt (intBits : Nat) (x : Int) : Int :=
  let v := x % 2 ^ intBits
  if v < 2 ^ (intBits - 1) then v else v - 2 ^ intBits

/-! ## Running a closure -/

/-- Run a closure `k` times from state `s`: the values returned, in call
order, and the state left behind; `none` when one of the calls panics. -/
def runCalls {σ ρ : Type} (step : σ → Option (ρ × σ)) : Nat → σ → Option (List ρ × σ)
  | 0, s => some ([], s)
  | k + 1, s =>
    match step s with
    | none => none
    | some (r, s') =>
      match runCalls step k s' with
      | none => none
      | some (rs, s'') => some (r :: rs, s'')

/-- The value returned by call number `k` (counting from 0) of a closure
started in state `s`. -/
def nthCall {σ ρ : Type} (step : σ → Option (ρ × σ)) (s : σ) (k : Nat) : Option ρ :=
  match runCalls step k s with
  | none => none
  | some (_, s') =>
    match step s' with
    | none => none
    | some (r, _) => some r

/-- The values returned by the `len` consecutive calls number
`m, m+1, ..., m+len-1` of a closure started in state `s`. -/
def window {σ ρ : Type} (step : σ → Option (ρ × σ)) (s : σ) (m len : Nat) : Option (List ρ) :=
  match runCalls step m s with
  | none => none
  | some (_, s') =>
    match runCalls step len s' with
    | none => none
    | some (rs, _) => some rs

/-! ## RoundRobin -/

namespace RoundRobin

/-- The captured counter starts as `pos := 0`. -/
def init : Nat := 0

/-- One call of the closure returned by `RoundRobin(servers)`:
`res := servers[pos]; pos++; if pos == len(servers) { pos = 0 }; return res`. -/
def call (servers : List String) (pos : Nat) : Option (String × Nat) :=
  match servers[pos]? with
  | none => none
  | some res =>
    let pos := pos + 1
    some (res, if pos = servers.length then 0 else pos)

end RoundRobin

/-! ## Random -/

/-- The function `Random(servers)`, where `x` is the value
`rand.Intn(len(servers))` returns (`rand.Intn` panics when its argument is not
positive): `index := rand.Intn(len(servers)); return servers[index]`. -/
def Random (servers : List String) (x : Nat) : Option String :=
  if servers.length = 0 then none else servers[x]?

/-! ## Weighted servers -/

/-- The Go struct `Server`. -/
structure Server where
  ip : String
  weight : Int
deriving DecidableEq, Repr

/-- The slice built by the nested loops of `WeigthRoundRobin` and
`WeigthRandom`: for each server in pool order, `weight` copies of its `ip`
(the inner loop `for j := 0; j < weight; j++` runs `weight.toNat` times). -/
def expand : List Server → List String
  | [] => []
  | sv :: rest => List.replicate sv.weight.toNat sv.ip ++ expand rest

/-- For each element of `expand servers`, the pool position (counted from
`i`) of the server whose inner loop appended it. -/
def slotsFrom (i : Nat) : List Server → List Nat
  | [] => []
  | sv :: rest => List.replicate sv.weight.toNat i ++ slotsFrom (i + 1) rest

/-- The pool position behind each element of `expand servers`. -/
def slots (servers : List Server) : List Nat := slotsFrom 0 servers

/-- The sum of the weights, as an exact integer (no wrap-around). -/
def totalWeight (servers : List Server) : Int :=
  servers.foldl (fun total sv => total + sv.weight) 0

/-! ## WeigthRoundRobin -/

namespace WeigthRoundRobin

/-- The captured counter starts as `pos := 0`. -/
def init : Nat := 0

/-- One call of the closure returned by `WeigthRoundRobin(servers)`, where
`s` is the expanded slice: `res := s[pos]; pos++; if pos == len(s) { pos = 0 }`. -/
def call (servers : List Server) (pos : Nat) : Option (String × Nat) :=
  let s := expand servers
  match s[pos]? with
  | none => none
  | some res =>
    let pos := pos + 1
    some (res, if pos = s.length then 0 else pos)

/-- The pool position selected by call number `k`: the owner of the slot
`k mod len(s)` that the call reads. -/
def position (servers : List Server) (k : Nat) : Nat :=
  (slots servers).getD (k % (slots servers).length) 0

end WeigthRoundRobin

/-! ## SmoothWeightRoundRobin -/

namespace SmoothWeightRoundRobin

/-- The captured slice starts as `current := make([]int, len(servers))`. -/
def init (servers : List Server) : List Int := List.replicate servers.length 0

/-- The captured `total`, as the loop
`for i := 0; i < len(servers); i++ { total += servers[i].weight }` computes it
with an `int` of `intBits` bits. -/
def total (intBits : Nat) (servers : List Server) : Int :=
  servers.foldl (fun total sv => wrapInt intBits (total + sv.weight)) 0

/-- The body of the selection loop for index `i`, on the loop variables
`(current, max, index)`:
`current[i] += servers[i].weight; if current[i] > max { max = current[i]; index = i }`.
Both reads are in range: `i < len(servers)` by the loop guard, and `current`
was allocated with `len(servers)` entries. -/
def scanStep (intBits : Nat) (servers : List Server) (st : List Int × Int × Nat) (i : Nat) :
    List Int × Int × Nat :=
  let c := wrapInt intBits (st.1.getD i 0 + (servers.getD i ⟨"", 0⟩).weight)
  let current := st.1.set i c
  if c > st.2.1 then (current, c, i) else (current, st.2.1, st.2.2)

/-- The selection loop `for i := 0; i < len(servers); i++`, started with
`max := 0; index := 0`. -/
def scan (intBits : Nat) (servers : List Server) (current : List Int) :
    List Int × Int × Nat :=
  (List.range servers.length).foldl (scanStep intBits servers) (current, 0, 0)

/-- One call of the closure, returning the selected index and the updated
`current`: the loop, then `current[index] -= total`. -/
def select (intBits : Nat) (servers : List Server) (current : List Int) :
    Option (Nat × List Int) :=
  let st := scan intBits servers current
  let index := st.2.2
  match st.1[index]? with
  | none => none
  | some c => some (index, st.1.set index (wrapInt intBits (c - total intBits servers)))

/-- One call of the closure returned by `SmoothWeightRoundRobin(servers)`:
as `select`, then `return servers[index].ip`. -/
def call (intBits : Nat) (servers : List Server) (current : List Int) :
    Option (String × List Int) :=
  match select intBits servers current with
  | none => none
  | some (index, current') =>
    match servers[index]? with
    | none => none
    | some sv => some (sv.ip, current')

/-- A state of the closure that some number of calls reaches from the fresh
state. -/
def Reachable (intBits : Nat) (servers : List Server) (current : List Int) : Prop :=
  ∃ k idxs, runCalls (select intBits servers) k (init servers) = some (idxs, current)

end SmoothWeightRoundRobin

/-! ## WeigthRandom -/

namespace WeigthRandom

/-- One call of the closure returned by `WeigthRandom(servers)`, where `x`
is the value `rand.Intn(len(s))` returns (`rand.Intn` panics when its
argument is not positive): `index := rand.Intn(len(s)); return s[index]`. -/
def call (servers : List Server) (x : Nat) : Option String :=
  let s := expand servers
  if s.length = 0 then none else s[x]?

end WeigthRandom

/-! ## WeigthRandom2 -/

/-- The loop of `sort.Search` of the Go standard library, with `fuel` bounding
the number of iterations:
`for i < j { h := int(uint(i+j) >> 1); if !f(h) { i = h + 1 } else { j = h } }; return i`.
`none` when the fuel runs out before the loop ends. -/
def sortSearchLoop (f : Nat → Bool) : Nat → Nat → Nat → Option Nat
  | 0, i, j => if i < j then none else some i
  | fuel + 1, i, j =>
    if i < j then
      let h := (i + j) / 2
      if !f h then sortSearchLoop f fuel (h + 1) j else sortSearchLoop f fuel i h
    else some i

/-- Go's `sort.Search(n, f)`: `i, j := 0, n`, then the loop. Each iteration
shrinks `j - i`, so `n` iterations are enough. -/
def sortSearch (n : Nat) (f : Nat → Bool) : Option Nat := sortSearchLoop f n 0 n

namespace WeigthRandom2

/-- The prefix sums `acc, acc + w₀, acc + w₀ + w₁, ...`, each addition done
on an `int` of `intBits` bits. -/
def preSumFrom (intBits : Nat) (acc : Int) : List Server → List Int
  | [] => [acc]
  | sv :: rest => acc :: preSumFrom intBits (wrapInt intBits (acc + sv.weight)) rest

/-- The slice `preSum` of length `len(servers)+1`:
`preSum[0] = 0`, `preSum[i] = preSum[i-1] + servers[i-1].weight`. -/
def preSum (intBits : Nat) (servers : List Server) : List Int := preSumFrom intBits 0 servers

/-- The captured `total := preSum[len(preSum)-1]`. -/
def total (intBits : Nat) (servers : List Server) : Int :=
  (preSum intBits servers).getD ((preSum intBits servers).length - 1) 0

/-- The index found by one call whose `rand.Intn(total)` returned `x`:
`num := x + 1; index := sort.Search(len(preSum), preSum[i] >= num)`. -/
def search (intBits : Nat) (servers : List Server) (x : Nat) : Option Nat :=
  let num : Int := wrapInt intBits ((x : Int) + 1)
  sortSearch (preSum intBits servers).length
    (fun i => decide ((preSum intBits servers).getD i 0 ≥ num))

/-- One call of the closure returned by `WeigthRandom2(servers)`, where `x`
is the value `rand.Intn(total)` returns (`rand.Intn` panics when `total` is
not positive): the search, then `return servers[index-1].ip`. -/
def call (intBits : Nat) (servers : List Server) (x : Nat) : Option String :=
  if total intBits servers ≤ 0 then none
  else
    match search intBits servers x with
    | none => none
    | some index =>
      if index = 0 then none
      else
        match servers[index - 1]? with
        | none => none
        | some sv => some sv.ip

end WeigthRandom2

/-! ## HashLoadBalance -/

/-- A Go string is a sequence of bytes. -/
abbrev Bytes := List (Fin 256)

/-- The 32-bit FNV offset basis of `hash/fnv`. -/
def offset32 : Nat := 2166136261

/-- The 32-bit FNV prime of `hash/fnv`. -/
def prime32 : Nat := 16777619

/-- The `Write` method of the hash that `fnv.New32()` of the Go standard
library returns (FNV-1: multiply, then xor), on a 32-bit state:
`for _, c := range data { hash *= prime32; hash ^= sum32(c) }`. -/
def fnvWrite (hash : Nat) (data : Bytes) : Nat :=
  data.foldl (fun hash c => ((hash * prime32) % 2 ^ 32) ^^^ c.val) hash

/-- The hash of `f := fnv.New32(); f.Write([]byte(key)); h := f.Sum32()`. -/
def fnvSum32 (key : Bytes) : Nat := fnvWrite offset32 key

/-- The conversion `int(h)` of a `uint32`, for an `int` of `intBits` bits
(32 or 64 in Go; two's complement: the low `intBits` bits, read as a signed
number). -/
def toInt (intBits : Nat) (h : Nat) : Int :=
  let v := h % 2 ^ intBits
  if v < 2 ^ (intBits - 1) then (v : Int) else (v : Int) - 2 ^ intBits

/-- Indexing a Go slice with an `int`: a negative or too large index panics. -/
def indexInt {α : Type} (xs : List α) (i : Int) : Option α :=
  if i < 0 then none else xs[i.toNat]?

/-- One call of the closure returned by `HashLoadBalance(servers)` on a
platform whose `int` has `intBits` bits:
`return servers[int(h)%len(servers)]`; Go's `%` truncates towards zero and
panics when the divisor is zero. -/
def HashLoadBalance (intBits : Nat) (servers : List String) (key : Bytes) : Option String :=
  let h := fnvSum32 key
  if servers.length = 0 then none
  else indexInt servers (Int.tmod (toInt intBits h) (servers.length : Int))

/-- The results of calling one closure returned by `HashLoadBalance(servers)`
with the keys of `keys`, one call after the other. -/
def hashCalls (intBits : Nat) (servers : List String) (keys : List Bytes) :
    List (Option String) :=
  keys.map (HashLoadBalance intBits servers)

/-! ## LeastResponseTime -/

/-- The Go struct `RT`: number of samples and their total duration. -/
structure RT where
  count : Int
  total : Int
deriving DecidableEq, Repr

/-- The Go struct `LoadBalancer`; the map `rt` is an association list. -/
structure LoadBalancer where
  servers : List String
  rt : List (String × RT)

/-- The map read `l.rt[server]`: a missing key reads as the zero value. -/
def LoadBalancer.stat (l : LoadBalancer) (server : String) : RT :=
  match l.rt.lookup server with
  | some r => r
  | none => ⟨0, 0⟩

/-- Go's integer division, truncating towards zero; division by zero panics.
The one quotient that does not fit an `int64`, `MinInt64 / -1`, is returned
exact. -/
def goDiv (a b : Int) : Option Int :=
  if b = 0 then none else some (Int.tdiv a b)

/-- The quotient `rt.total / time.Duration(rt.count)` for a server. -/
def LoadBalancer.average (l : LoadBalancer) (server : String) : Option Int :=
  goDiv (l.stat server).total (l.stat server).count

/-- The loop `for i := 1; i < len(l.servers); i++` over the remaining
servers, on the loop variables `min` and `server`. -/
def LoadBalancer.leastLoop (l : LoadBalancer) : List String → Int → String → Option String
  | [], _, server => some server
  | s :: rest, min, server =>
    match l.average s with
    | none => none
    | some average =>
      if average < min then l.leastLoop rest average s else l.leastLoop rest min server

/-- The method `LeastResponseTime`. -/
def LoadBalancer.LeastResponseTime (l : LoadBalancer) : Option String :=
  match l.servers with
  | [] => some ""
  | server :: rest =>
    match l.average server with
    | none => none
    | some min => l.leastLoop rest min server

/-! ## Definitions of the specification -/

/-- The 32-bit FNV-1a hash that the specification names (xor, then multiply),
the hash `fnv.New32a()` of the Go standard library computes. -/
def fnv1a32 (key : Bytes) : Nat :=
  key.foldl (fun hash c => ((hash ^^^ c.val) * prime32) % 2 ^ 32) offset32

/-- The exact average `total / count` of a server, as a rational number. -/
def LoadBalancer.exactAverage (l : LoadBalancer) (server : String) : ℚ :=
  ((l.stat server).total : ℚ) / ((l.stat server).count : ℚ)

/-! ## Definitions used in the proofs -/

/-- The weight of the server at pool position `i` (0 outside the pool). -/
def wt (servers : List Server) (i : Nat) : Int := (servers.getD i ⟨"", 0⟩).weight

/-- The list `a, b, a, b, ...` of `j` pairs. -/
def alternate {α : Type} (a b : α) : Nat → List α
  | 0 => []
  | j + 1 => a :: b :: alternate a b j

namespace SmoothWeightRoundRobin

/-- The loop body `scanStep` on exact integers (no wrap-around). -/
def scanStepExact (servers : List Server) (st : List Int × Int × Nat) (i : Nat) :
    List Int × Int × Nat :=
  let c := st.1.getD i 0 + (servers.getD i ⟨"", 0⟩).weight
  let current := st.1.set i c
  if c > st.2.1 then (current, c, i) else (current, st.2.1, st.2.2)

/-- The selection loop `scan` on exact integers. -/
def scanExact (servers : List Server) (current : List Int) : List Int × Int × Nat :=
  (List.range servers.length).foldl (scanStepExact servers) (current, 0, 0)

/-- The step `select` on exact integers. -/
def selectExact (servers : List Server) (current : List Int) : Option (Nat × List Int) :=
  let st := scanExact servers current
  let index := st.2.2
  match st.1[index]? with
  | none => none
  | some c => some (index, st.1.set index (c - totalWeight servers))

/-- The loop variables of the exact loop after its first `m` iterations. -/
def scanUpTo (servers : List Server) (current : List Int) (m : Nat) : List Int × Int × Nat :=
  (List.range m).foldl (scanStepExact servers) (current, 0, 0)

/-- What holds after `m` iterations: the first `m` entries are incremented,
the others untouched, `max` bounds the incremented entries, and `index` is the
first position that attains a positive `max`. -/
structure ScanInv (servers : List Server) (current : List Int) (m : Nat)
    (st : List Int × Int × Nat) : Prop where
  len : st.1.length = current.length
  done : ∀ i, i < m → st.1.getD i 0 = current.getD i 0 + wt servers i
  todo : ∀ i, m ≤ i → st.1.getD i 0 = current.getD i 0
  nonneg : 0 ≤ st.2.1
  bound : ∀ i, i < m → st.1.getD i 0 ≤ st.2.1
  best : (st.2.1 = 0 ∧ st.2.2 = 0) ∨
    (st.2.2 < m ∧ st.1.getD st.2.2 0 = st.2.1 ∧ 0 < st.2.1 ∧
      ∀ i, i < st.2.2 → st.1.getD i 0 < st.2.1)

/-- What holds after `k` calls that selected the positions `idxs`: entry `i`
of `current` is `k * weight_i - total * (number of selections of i)`, and it
stays above `-total`. -/
structure RunInv (servers : List Server) (k : Nat) (idxs : List Nat) (cur : List Int) :
    Prop where
  len : cur.length = servers.length
  idxlen : idxs.length = k
  inb : ∀ x ∈ idxs, x < servers.length
  val : ∀ i, i < servers.length →
    cur.getD i 0 = (k : Int) * wt servers i - totalWeight servers * (idxs.count i : Int)
  low : ∀ i, i < servers.length → -totalWeight servers < cur.getD i 0

end SmoothWeightRoundRobin

namespace WeigthRandom2

/-- The prefix sums `preSumFrom` on exact integers (no wrap-around). -/
def preSumFromExact (acc : Int) : List Server → List Int
  | [] => [acc]
  | sv :: rest => acc :: preSumFromExact (acc + sv.weight) rest

/-- The slice `preSum` on exact integers. -/
def preSumExact (servers : List Server) : List Int := preSumFromExact 0 servers

/-- The index `search` finds on exact integers. -/
def searchExact (servers : List Server) (x : Nat) : Option Nat :=
  let num : Int := (x : Int) + 1
  sortSearch (preSumExact servers).length
    (fun i => decide ((preSumExact servers).getD i 0 ≥ num))

end WeigthRandom2

/-! ## Lemmas on running closures -/

theorem runCalls_add {σ ρ : Type} (step : σ → Option (ρ × σ)) (a b : Nat) (s : σ) :
    runCalls step (a + b) s =
      match runCalls step a s with
      | none => none
      | some (rs, s') =>
        match runCalls step b s' with
        | none => none
        | some (rs', s'') => some (rs ++ rs', s'') := by
  induction a generalizing s with
  | zero =>
    simp only [Nat.zero_add, runCalls]
    cases runCalls step b s with
    | none => rfl
    | some p => rfl
  | succ a ih =>
    rw [Nat.succ_add]
    simp only [runCalls]
    cases hs : step s with
    | none => rfl
    | some p =>
      obtain ⟨r, s1⟩ := p
      simp only [ih]
      cases h1 : runCalls step a s1 with
      | none => rfl
      | some q =>
        obtain ⟨rs, s2⟩ := q
        simp only
        cases h2 : runCalls step b s2 with
        | none => rfl
        | some q2 => rfl

/-! ## RoundRobin -/

theorem rr_call (s : List String) (pos : Nat) (h : pos < s.length) :
    RoundRobin.call s pos = some (s.getD pos "", (pos + 1) % s.length) := by
  unfold RoundRobin.call
  rw [List.getElem?_eq_getElem h]
  simp only [List.getD_eq_getElem?_getD, List.getElem?_eq_getElem h, Option.getD_some]
  by_cases h1 : pos + 1 = s.length
  · simp [h1]
  · have : pos + 1 < s.length := by omega
    simp [h1, Nat.mod_eq_of_lt this]

theorem rr_run (s : List String) (k pos : Nat) (h : pos < s.length) :
    runCalls (RoundRobin.call s) k pos =
      some ((List.range k).map (fun j => s.getD ((pos + j) % s.length) ""),
        (pos + k) % s.length) := by
  induction k generalizing pos with
  | zero => simp [runCalls, Nat.mod_eq_of_lt h]
  | succ k ih =>
    have hpos : (pos + 1) % s.length < s.length := Nat.mod_lt _ (by omega)
    simp only [runCalls, rr_call s pos h, ih _ hpos]
    rw [List.range_succ_eq_map]
    simp only [List.map_cons, List.map_map, Nat.add_zero, Nat.mod_eq_of_lt h]
    refine congrArg some (Prod.ext ?_ ?_)
    · simp only [List.cons.injEq, true_and]
      apply List.map_congr_left
      intro j _
      simp only [Function.comp, Nat.succ_eq_add_one]
      congr 1
      rw [Nat.add_mod, Nat.mod_mod, ← Nat.add_mod]; congr 1; omega
    · simp only
      rw [Nat.add_mod, Nat.mod_mod, ← Nat.add_mod]; congr 1; omega

theorem rr_nthCall (s : List String) (hs : s ≠ []) (k : Nat) :
    nthCall (RoundRobin.call s) 0 k = s[k % s.length]? := by
  have hpos : 0 < s.length := List.length_pos.mpr hs
  have hk : k % s.length < s.length := Nat.mod_lt _ hpos
  unfold nthCall
  rw [rr_run s k 0 hpos]
  simp only [Nat.zero_add, rr_call s _ hk]
  rw [List.getD_eq_getElem?_getD, List.getElem?_eq_getElem hk, Option.getD_some]

theorem rotating_positions_perm (n m : Nat) :
    ((List.range n).map (fun j => (m + j) % n)).Perm (List.range n) := by
  have h : (List.range n).map (fun j => (m + j) % n) = (List.range n).rotate (m % n) := by
    apply List.ext_getElem
    · simp
    · intro j h1 h2
      simp only [List.length_map, List.length_range] at h1
      rw [List.getElem_rotate]
      simp only [List.getElem_map, List.getElem_range, List.length_range]
      rw [Nat.add_mod_mod, Nat.add_comm]
  rw [h]
  exact List.rotate_perm _ _

theorem rr_window (s : List String) (hs : s ≠ []) (m : Nat) :
    window (RoundRobin.call s) 0 m s.length = some (s.rotate (m % s.length)) := by
  have hpos : 0 < s.length := List.length_pos.mpr hs
  have hm : m % s.length < s.length := Nat.mod_lt _ hpos
  unfold window
  rw [rr_run s m 0 hpos]
  simp only [Nat.zero_add, rr_run s _ _ hm]
  congr 1
  apply List.ext_getElem
  · simp
  · intro j h1 h2
    simp only [List.length_map, List.length_range] at h1
    rw [List.getElem_rotate]
    simp only [List.getElem_map, List.getElem_range]
    have h3 : (m % s.length + j) % s.length = (j + m % s.length) % s.length := by
      rw [Nat.add_comm]
    rw [h3, List.getD_eq_getElem?_getD, List.getElem?_eq_getElem (Nat.mod_lt _ hpos),
      Option.getD_some]

/-! ## Runs that enter a cycle of two states -/

theorem runCalls_one {σ ρ : Type} (step : σ → Option (ρ × σ)) (s s' : σ) (r : ρ)
    (h : step s = some (r, s')) : runCalls step 1 s = some ([r], s') := by
  simp only [runCalls, h]

theorem runCalls_cycle2 {σ ρ : Type} (step : σ → Option (ρ × σ)) (s₁ s₂ : σ) (a b : ρ)
    (h₁ : step s₁ = some (a, s₂)) (h₂ : step s₂ = some (b, s₁)) (j : Nat) :
    runCalls step (2 * j) s₁ = some (alternate a b j, s₁) := by
  induction j with
  | zero => rfl
  | succ j ih =>
    have e : 2 * (j + 1) = 2 * j + 1 + 1 := by ring
    rw [e]
    simp only [runCalls, h₁, h₂, ih, alternate]

theorem runCalls_lead_cycle2 {σ ρ : Type} (step : σ → Option (ρ × σ)) (s₀ s₁ s₂ : σ)
    (r a b : ρ) (h₀ : step s₀ = some (r, s₁)) (h₁ : step s₁ = some (a, s₂))
    (h₂ : step s₂ = some (b, s₁)) (j : Nat) :
    runCalls step (1 + (2 * j + 1)) s₀ = some (r :: (alternate a b j ++ [a]), s₂) := by
  rw [runCalls_add, runCalls_one step s₀ s₁ r h₀]
  simp only
  rw [runCalls_add, runCalls_cycle2 step s₁ s₂ a b h₁ h₂ j]
  simp only
  rw [runCalls_one step s₁ s₂ a h₁]
  rfl

theorem count_alternate (a b x : Nat) (j : Nat) :
    (alternate a b j).count x = (if a = x then j else 0) + (if b = x then j else 0) := by
  induction j with
  | zero => simp [alternate]
  | succ j ih =>
    simp only [alternate, List.count_cons, ih, beq_iff_eq]
    by_cases h1 : a = x <;> by_cases h2 : b = x <;> simp [h1, h2]
    all_goals omega

theorem nthCall_of_runCalls {σ ρ : Type} (step : σ → Option (ρ × σ)) (k : Nat)
    (s s' s'' : σ) (rs : List ρ) (r : ρ) (h : runCalls step k s = some (rs, s'))
    (hs : step s' = some (r, s'')) : nthCall step s k = some r := by
  unfold nthCall
  rw [h]
  simp only [hs]

/-- C2. RoundRobin: on a non-empty pool of `n` servers, call number `k`
(counting from 0) returns `servers[k mod n]`; any `n` consecutive calls,
starting at any call number `m`, return the pool rotated by `m mod n`, that
is call `m + j` returns `servers[(m + j) mod n]`, and the positions
`(m + j) mod n`, `j < n`, are each pool position exactly once. -/
theorem roundRobin_rotates (servers : List String) (hne : servers ≠ []) :
    (∀ k, k % servers.length < servers.length ∧
      nthCall (RoundRobin.call servers) RoundRobin.init k = servers[k % servers.length]?) ∧
    (∀ m, window (RoundRobin.call servers) RoundRobin.init m servers.length
        = some (servers.rotate (m % servers.length)) ∧
      (∀ j, j < servers.length →
        (servers.rotate (m % servers.length))[j]? = servers[(m + j) % servers.length]?) ∧
      ((List.range servers.length).map (fun j => (m + j) % servers.length)).Perm
        (List.range servers.length)) := by
  have hpos : 0 < servers.length := List.length_pos.mpr hne
  refine ⟨fun k => ⟨Nat.mod_lt _ hpos, rr_nthCall servers hne k⟩, fun m => ⟨?_, ?_, ?_⟩⟩
  · exact rr_window servers hne m
  · intro j hj
    rw [List.getElem?_rotate hj]
    congr 1
    rw [Nat.add_mod_mod, Nat.add_comm]
  · exact rotating_positions_perm _ m

theorem roundRobin_rotates_witness :
    (∀ k, k % 3 < 3 ∧
      nthCall (RoundRobin.call ["a", "b", "c"]) RoundRobin.init k = ["a", "b", "c"][k % 3]?) ∧
    (∀ m, window (RoundRobin.call ["a", "b", "c"]) RoundRobin.init m 3
        = some (["a", "b", "c"].rotate (m % 3)) ∧
      (∀ j, j < 3 → (["a", "b", "c"].rotate (m % 3))[j]? = ["a", "b", "c"][(m + j) % 3]?) ∧
      ((List.range 3).map (fun j => (m + j) % 3)).Perm (List.range 3)) :=
  roundRobin_rotates ["a", "b", "c"] (by decide)

/-! ## Wrap-around -/

theorem two_pow_pred (intBits : Nat) (hb : 0 < intBits) :
    (2 : Int) ^ intBits = 2 * 2 ^ (intBits - 1) := by
  obtain ⟨m, rfl⟩ := Nat.exists_eq_succ_of_ne_zero (Nat.pos_iff_ne_zero.mp hb)
  simp only [Nat.succ_eq_add_one, Nat.add_sub_cancel, pow_succ]
  ring

theorem wrapInt_eq_self (intBits : Nat) (x : Int) (hb : 0 < intBits)
    (hlo : -(2 : Int) ^ (intBits - 1) ≤ x) (hhi : x < (2 : Int) ^ (intBits - 1)) :
    wrapInt intBits x = x := by
  have h2 := two_pow_pred intBits hb
  have hN : (0 : Int) < 2 ^ (intBits - 1) := by positivity
  unfold wrapInt
  simp only [h2]
  by_cases hx : 0 ≤ x
  · rw [Int.emod_eq_of_lt hx (by omega)]
    rw [if_pos hhi]
  · have h1 : (x + 2 * 2 ^ (intBits - 1)) % (2 * 2 ^ (intBits - 1))
        = x + 2 * 2 ^ (intBits - 1) := Int.emod_eq_of_lt (by omega) (by omega)
    rw [Int.add_emod_self] at h1
    rw [h1, if_neg (by omega)]
    omega

theorem wrapInt_emod (intBits : Nat) (x : Int) :
    wrapInt intBits x % 2 ^ intBits = x % 2 ^ intBits := by
  unfold wrapInt
  simp only
  split
  · exact Int.emod_emod_of_dvd x (dvd_refl _)
  · rw [Int.sub_emod, Int.emod_self, sub_zero, Int.emod_emod_of_dvd _ (dvd_refl _),
      Int.emod_emod_of_dvd _ (dvd_refl _)]

theorem wrapInt_cast (intBits : Nat) (x : Int) :
    ((wrapInt intBits x : Int) : ZMod (2 ^ intBits)) = (x : ZMod (2 ^ intBits)) := by
  rw [ZMod.intCast_eq_intCast_iff_dvd_sub]
  have h := wrapInt_emod intBits x
  have hd : (2 : Int) ^ intBits ∣ x - wrapInt intBits x :=
    Int.dvd_of_emod_eq_zero (by rw [Int.sub_emod, h]; simp)
  exact_mod_cast hd

theorem getD_set_int (l : List Int) (i j : Nat) (v : Int) (h : i < l.length) :
    (l.set i v).getD j 0 = if j = i then v else l.getD j 0 := by
  simp only [List.getD_eq_getElem?_getD, List.getElem?_set]
  by_cases hji : j = i
  · subst hji; simp [h]
  · have : ¬ i = j := fun e => hji e.symm
    simp [hji, this]

namespace SmoothWeightRoundRobin

theorem scanUpTo_succ (servers : List Server) (current : List Int) (m : Nat) :
    scanUpTo servers current (m + 1) = scanStepExact servers (scanUpTo servers current m) m := by
  unfold scanUpTo
  rw [List.range_succ, List.foldl_append]
  rfl

theorem scanUpTo_inv (servers : List Server) (current : List Int) (m : Nat)
    (hm : m ≤ current.length) : ScanInv servers current m (scanUpTo servers current m) := by
  induction m with
  | zero =>
    exact ⟨rfl, fun i hi => absurd hi (Nat.not_lt_zero i), fun i _ => rfl, le_refl _,
      fun i hi => absurd hi (Nat.not_lt_zero i), Or.inl ⟨rfl, rfl⟩⟩
  | succ m ih =>
    have inv := ih (by omega)
    rw [scanUpTo_succ]
    generalize scanUpTo servers current m = st at inv
    obtain ⟨cur, mx, idx⟩ := st
    have hlen : m < cur.length := by have := inv.len; simp only at this; omega
    have hc : cur.getD m 0 = current.getD m 0 := inv.todo m (le_refl _)
    have hset : ∀ j, (cur.set m (cur.getD m 0 + wt servers m)).getD j 0 =
        if j = m then cur.getD m 0 + wt servers m else cur.getD j 0 :=
      fun j => getD_set_int cur m j _ hlen
    have hdone : ∀ i, i < m + 1 →
        (cur.set m (cur.getD m 0 + wt servers m)).getD i 0 = current.getD i 0 + wt servers i := by
      intro i hi
      rw [hset]
      by_cases him : i = m
      · subst him; simp only [if_true]; rw [hc]
      · simp only [him, if_false]; exact inv.done i (by omega)
    have htodo : ∀ i, m + 1 ≤ i →
        (cur.set m (cur.getD m 0 + wt servers m)).getD i 0 = current.getD i 0 := by
      intro i hi
      rw [hset]
      have him : i ≠ m := by omega
      simp only [him, if_false]; exact inv.todo i (by omega)
    have hb := inv.bound
    have hbest := inv.best
    have hnn := inv.nonneg
    simp only at hb hbest hnn
    unfold scanStepExact
    simp only [show (servers.getD m ⟨"", 0⟩).weight = wt servers m from rfl]
    by_cases hgt : cur.getD m 0 + wt servers m > mx
    · simp only [hgt, if_true]
      refine ⟨by simpa using inv.len, hdone, htodo, ?_, ?_, ?_⟩
      · simp only; omega
      · intro i hi
        simp only
        rw [hset]
        by_cases him : i = m
        · simp [him]
        · simp only [him, if_false]
          have := hb i (by omega); omega
      · right
        simp only
        refine ⟨by omega, by rw [hset]; simp, by omega, ?_⟩
        intro i hi
        rw [hset]
        have him : i ≠ m := by omega
        simp only [him, if_false]
        have := hb i hi; omega
    · simp only [hgt, if_false]
      refine ⟨by simpa using inv.len, hdone, htodo, hnn, ?_, ?_⟩
      · intro i hi
        simp only
        rw [hset]
        by_cases him : i = m
        · simp only [him, if_true]; omega
        · simp only [him, if_false]; exact hb i (by omega)
      · rcases hbest with h0 | ⟨h1, h2, h3, h4⟩
        · exact Or.inl h0
        · right
          simp only
          have hidx : idx ≠ m := by omega
          refine ⟨by omega, by rw [hset]; simp only [hidx, if_false]; exact h2, h3, ?_⟩
          intro i hi
          rw [hset]
          have him : i ≠ m := by omega
          simp only [him, if_false]
          exact h4 i hi

end SmoothWeightRoundRobin

theorem wt_cons_succ (sv : Server) (rest : List Server) (i : Nat) :
    wt (sv :: rest) (i + 1) = wt rest i := rfl

theorem wt_eq_getElem (servers : List Server) (i : Nat) (hi : i < servers.length) :
    wt servers i = servers[i].weight := by
  unfold wt
  rw [List.getD_eq_getElem?_getD, List.getElem?_eq_getElem hi, Option.getD_some]

theorem foldl_weight (servers : List Server) (a : Int) :
    servers.foldl (fun total sv => total + sv.weight) a
      = a + ∑ i in Finset.range servers.length, wt servers i := by
  induction servers generalizing a with
  | nil => simp
  | cons sv rest ih =>
    rw [List.foldl_cons, ih, List.length_cons, Finset.sum_range_succ']
    simp only [wt_cons_succ]
    have : wt (sv :: rest) 0 = sv.weight := rfl
    rw [this]; ring

theorem totalWeight_eq_sum (servers : List Server) :
    totalWeight servers = ∑ i in Finset.range servers.length, wt servers i := by
  unfold totalWeight
  rw [foldl_weight, zero_add]

theorem wt_pos (servers : List Server) (hw : ∀ sv ∈ servers, 1 ≤ sv.weight) (i : Nat)
    (hi : i < servers.length) : 1 ≤ wt servers i := by
  rw [wt_eq_getElem servers i hi]
  exact hw _ (List.getElem_mem hi)

theorem totalWeight_pos (servers : List Server) (hne : servers ≠ [])
    (hw : ∀ sv ∈ servers, 1 ≤ sv.weight) : 1 ≤ totalWeight servers := by
  rw [totalWeight_eq_sum]
  have hpos : 0 < servers.length := List.length_pos.mpr hne
  have h1 : ∑ _i in Finset.range servers.length, (1 : Int) ≤
      ∑ i in Finset.range servers.length, wt servers i :=
    Finset.sum_le_sum (fun i hi => wt_pos servers hw i (Finset.mem_range.mp hi))
  simp only [Finset.sum_const, Finset.card_range, nsmul_eq_mul, mul_one] at h1
  have : (1 : Int) ≤ (servers.length : Int) := by exact_mod_cast hpos
  omega

theorem count_sum (l : List Nat) (n : Nat) (h : ∀ x ∈ l, x < n) :
    ∑ i in Finset.range n, (l.count i : Int) = l.length := by
  induction l with
  | nil => simp
  | cons x l ih =>
    have hx : x < n := h x (List.mem_cons_self _ _)
    have hl : ∀ y ∈ l, y < n := fun y hy => h y (List.mem_cons_of_mem _ hy)
    have hc : ∀ i, ((x :: l).count i : Int) = (l.count i : Int) + if x = i then 1 else 0 := by
      intro i
      rw [List.count_cons]
      by_cases hxi : x = i
      · simp [hxi]
      · simp [hxi]
    simp only [hc, Finset.sum_add_distrib, ih hl, Finset.sum_ite_eq, Finset.mem_range, hx,
      if_true, List.length_cons]
    push_cast; ring

namespace SmoothWeightRoundRobin

theorem select_spec (servers : List Server) (cur : List Int)
    (hlen : cur.length = servers.length)
    (hpos : ∃ i, i < servers.length ∧ 0 < cur.getD i 0 + wt servers i) :
    ∃ idx cur', selectExact servers cur = some (idx, cur') ∧ idx < servers.length ∧
      cur'.length = servers.length ∧
      (∀ i, i < servers.length →
        cur.getD i 0 + wt servers i ≤ cur.getD idx 0 + wt servers idx) ∧
      (∀ i, i < idx → cur.getD i 0 + wt servers i < cur.getD idx 0 + wt servers idx) ∧
      0 < cur.getD idx 0 + wt servers idx ∧
      cur'.getD idx 0 = cur.getD idx 0 + wt servers idx - totalWeight servers ∧
      (∀ i, i ≠ idx → cur'.getD i 0 = cur.getD i 0 + wt servers i ∨ servers.length ≤ i) := by
  have inv := scanUpTo_inv servers cur servers.length (by omega)
  have hscan : scanExact servers cur = scanUpTo servers cur servers.length := rfl
  unfold selectExact
  simp only [hscan]
  generalize scanUpTo servers cur servers.length = st at inv
  obtain ⟨cs, mx, idx⟩ := st
  have hl := inv.len
  have hd := inv.done
  have hb := inv.bound
  have hbest := inv.best
  simp only at hl hd hb hbest
  obtain ⟨i0, hi0, hi0pos⟩ := hpos
  have hmx : 0 < mx := by
    have h1 := hb i0 hi0
    rw [hd i0 hi0] at h1
    omega
  rcases hbest with ⟨h0, _⟩ | ⟨h1, h2, _, h4⟩
  · omega
  · have hidx : idx < cs.length := by omega
    have hget : cs[idx]? = some (cs.getD idx 0) := by
      rw [List.getD_eq_getElem?_getD, List.getElem?_eq_getElem hidx, Option.getD_some]
    simp only [hget]
    refine ⟨idx, _, rfl, h1, by simp [hl, hlen], ?_, ?_, ?_, ?_, ?_⟩
    · intro i hi
      rw [← hd i hi, ← hd idx h1, h2]
      exact hb i hi
    · intro i hi
      rw [← hd i (by omega), ← hd idx h1, h2]
      exact h4 i hi
    · rw [← hd idx h1, h2]; exact hmx
    · rw [getD_set_int cs idx idx _ hidx, if_pos rfl, hd idx h1]
    · intro i hi
      by_cases hin : i < servers.length
      · left
        rw [getD_set_int cs idx i _ hidx, if_neg hi, hd i hin]
      · right; omega

end SmoothWeightRoundRobin

namespace SmoothWeightRoundRobin

theorem runInv_sum (servers : List Server) (k : Nat) (idxs : List Nat) (cur : List Int)
    (inv : RunInv servers k idxs cur) :
    ∑ i in Finset.range servers.length, cur.getD i 0 = 0 := by
  have h1 : ∑ i in Finset.range servers.length, cur.getD i 0 =
      ∑ i in Finset.range servers.length,
        ((k : Int) * wt servers i - totalWeight servers * (idxs.count i : Int)) :=
    Finset.sum_congr rfl (fun i hi => inv.val i (Finset.mem_range.mp hi))
  rw [h1, Finset.sum_sub_distrib, ← Finset.mul_sum, ← Finset.mul_sum,
    count_sum idxs servers.length inv.inb, ← totalWeight_eq_sum, inv.idxlen]
  ring

theorem runInv_exists_pos (servers : List Server) (k : Nat) (idxs : List Nat)
    (cur : List Int) (inv : RunInv servers k idxs cur) (hW : 1 ≤ totalWeight servers) :
    ∃ i, i < servers.length ∧ 0 < cur.getD i 0 + wt servers i := by
  by_contra hcon
  have hall : ∀ i ∈ Finset.range servers.length, cur.getD i 0 + wt servers i ≤ 0 := by
    intro i hi
    by_contra hlt
    exact hcon ⟨i, Finset.mem_range.mp hi, by omega⟩
  have h1 := Finset.sum_nonpos hall
  rw [Finset.sum_add_distrib, runInv_sum servers k idxs cur inv, ← totalWeight_eq_sum] at h1
  omega

theorem runInv_init (servers : List Server) (hW : 1 ≤ totalWeight servers) :
    RunInv servers 0 [] (init servers) := by
  have hz : ∀ i, (init servers).getD i 0 = 0 := by
    intro i
    unfold init
    rw [List.getD_eq_getElem?_getD, List.getElem?_replicate]
    split <;> rfl
  refine ⟨by simp [init], rfl, fun x hx => absurd hx (List.not_mem_nil x), ?_, ?_⟩
  · intro i _; rw [hz]; simp
  · intro i _; rw [hz]; omega

theorem runInv_step (servers : List Server) (hw : ∀ sv ∈ servers, 1 ≤ sv.weight)
    (hW : 1 ≤ totalWeight servers) (k : Nat) (idxs : List Nat) (cur : List Int)
    (inv : RunInv servers k idxs cur) :
    ∃ idx cur', selectExact servers cur = some (idx, cur') ∧
      RunInv servers (k + 1) (idxs ++ [idx]) cur' := by
  obtain ⟨idx, cur', hsel, hidx, hlen', _, _, hposi, hat, hoth⟩ :=
    select_spec servers cur inv.len (runInv_exists_pos servers k idxs cur inv hW)
  refine ⟨idx, cur', hsel, hlen', by simp [inv.idxlen], ?_, ?_, ?_⟩
  · intro x hx
    rcases List.mem_append.mp hx with h | h
    · exact inv.inb x h
    · rw [List.mem_singleton.mp h]; exact hidx
  · intro i hi
    by_cases hii : i = idx
    · subst hii
      rw [hat, inv.val i hi, List.count_append]
      simp only [List.count_singleton_self]
      push_cast; ring
    · rcases hoth i hii with h | h
      · rw [h, inv.val i hi, List.count_append]
        have hne : ¬ idx = i := fun e => hii e.symm
        simp only [List.count_singleton, beq_iff_eq, hne, if_false]
        push_cast; ring
      · omega
  · intro i hi
    by_cases hii : i = idx
    · subst hii; rw [hat]; omega
    · rcases hoth i hii with h | h
      · rw [h]
        have h1 := inv.low i hi
        have h2 := wt_pos servers hw i hi
        omega
      · omega

theorem run_inv (servers : List Server) (hne : servers ≠ [])
    (hw : ∀ sv ∈ servers, 1 ≤ sv.weight) (k : Nat) :
    ∃ idxs cur, runCalls (selectExact servers) k (init servers) = some (idxs, cur) ∧
      RunInv servers k idxs cur := by
  have hW := totalWeight_pos servers hne hw
  induction k with
  | zero => exact ⟨[], init servers, rfl, runInv_init servers hW⟩
  | succ k ih =>
    obtain ⟨idxs, cur, hrun, inv⟩ := ih
    obtain ⟨idx, cur', hsel, inv'⟩ := runInv_step servers hw hW k idxs cur inv
    refine ⟨idxs ++ [idx], cur', ?_, inv'⟩
    rw [runCalls_add, hrun]
    simp only [runCalls, hsel]

end SmoothWeightRoundRobin

namespace SmoothWeightRoundRobin

theorem runInv_full_count (servers : List Server) (hW : 1 ≤ totalWeight servers)
    (idxs : List Nat) (cur : List Int)
    (inv : RunInv servers (totalWeight servers).toNat idxs cur) :
    ∀ i, i < servers.length → (idxs.count i : Int) = wt servers i := by
  have hk : (((totalWeight servers).toNat : Nat) : Int) = totalWeight servers :=
    Int.toNat_of_nonneg (by omega)
  have hle : ∀ i ∈ Finset.range servers.length,
      0 ≤ wt servers i - (idxs.count i : Int) := by
    intro i hi
    have hi' := Finset.mem_range.mp hi
    have h1 := inv.low i hi'
    rw [inv.val i hi', hk] at h1
    by_contra hneg
    have h2 : wt servers i - (idxs.count i : Int) ≤ -1 := by omega
    nlinarith
  have hsum : ∑ i in Finset.range servers.length, (wt servers i - (idxs.count i : Int)) = 0 := by
    rw [Finset.sum_sub_distrib, count_sum idxs servers.length inv.inb, ← totalWeight_eq_sum,
      inv.idxlen, hk]
    ring
  intro i hi
  have := (Finset.sum_eq_zero_iff_of_nonneg hle).mp hsum i (Finset.mem_range.mpr hi)
  omega

theorem runInv_full_state (servers : List Server) (hW : 1 ≤ totalWeight servers)
    (idxs : List Nat) (cur : List Int)
    (inv : RunInv servers (totalWeight servers).toNat idxs cur) : cur = init servers := by
  have hcnt := runInv_full_count servers hW idxs cur inv
  have hk : (((totalWeight servers).toNat : Nat) : Int) = totalWeight servers :=
    Int.toNat_of_nonneg (by omega)
  apply List.ext_getElem
  · simp [init, inv.len]
  · intro i h1 h2
    have hi : i < servers.length := by rw [← inv.len]; exact h1
    have hv := inv.val i hi
    rw [hk, hcnt i hi, List.getD_eq_getElem?_getD, List.getElem?_eq_getElem h1,
      Option.getD_some] at hv
    rw [hv]
    simp [init]

/-- One full period: `total` calls from the fresh state. -/
theorem run_period (servers : List Server) (hne : servers ≠ [])
    (hw : ∀ sv ∈ servers, 1 ≤ sv.weight) :
    ∃ idxs, runCalls (selectExact servers) (totalWeight servers).toNat (init servers)
        = some (idxs, init servers) ∧
      (∀ x ∈ idxs, x < servers.length) ∧
      ∀ i, i < servers.length → (idxs.count i : Int) = wt servers i := by
  have hW := totalWeight_pos servers hne hw
  obtain ⟨idxs, cur, hrun, inv⟩ := run_inv servers hne hw (totalWeight servers).toNat
  have hcur := runInv_full_state servers hW idxs cur inv
  rw [hcur] at hrun
  exact ⟨idxs, hrun, inv.inb, runInv_full_count servers hW idxs cur inv⟩

/-- Any number `k` of full periods from the fresh state. -/
theorem run_periods (servers : List Server) (hne : servers ≠ [])
    (hw : ∀ sv ∈ servers, 1 ≤ sv.weight) (k : Nat) :
    ∃ idxs, runCalls (selectExact servers) (k * (totalWeight servers).toNat) (init servers)
        = some (idxs, init servers) ∧
      (∀ x ∈ idxs, x < servers.length) ∧
      ∀ i, i < servers.length → (idxs.count i : Int) = (k : Int) * wt servers i := by
  obtain ⟨p, hp, hpb, hpc⟩ := run_period servers hne hw
  induction k with
  | zero =>
    refine ⟨[], ?_, fun x hx => absurd hx (List.not_mem_nil x), fun i _ => by simp⟩
    rw [Nat.zero_mul]; rfl
  | succ k ih =>
    obtain ⟨idxs, hrun, hb, hc⟩ := ih
    refine ⟨idxs ++ p, ?_, ?_, ?_⟩
    · rw [Nat.succ_mul, runCalls_add, hrun]
      simp only [hp]
    · intro x hx
      rcases List.mem_append.mp hx with h | h
      · exact hb x h
      · exact hpb x h
    · intro i hi
      rw [List.count_append]
      push_cast
      rw [hc i hi, hpc i hi]
      ring

end SmoothWeightRoundRobin

/-! ## The expanded slice -/

theorem totalWeight_cons (sv : Server) (rest : List Server) :
    totalWeight (sv :: rest) = sv.weight + totalWeight rest := by
  unfold totalWeight
  rw [List.foldl_cons, foldl_weight, foldl_weight]
  ring

theorem totalWeight_nonneg (servers : List Server) (hw : ∀ sv ∈ servers, 0 ≤ sv.weight) :
    0 ≤ totalWeight servers := by
  induction servers with
  | nil => exact le_refl _
  | cons sv rest ih =>
    rw [totalWeight_cons]
    have h1 := hw sv (List.mem_cons_self _ _)
    have h2 := ih (fun x hx => hw x (List.mem_cons_of_mem _ hx))
    omega

theorem expand_length (servers : List Server) (hw : ∀ sv ∈ servers, 0 ≤ sv.weight) :
    ((expand servers).length : Int) = totalWeight servers := by
  induction servers with
  | nil => rfl
  | cons sv rest ih =>
    have h1 := hw sv (List.mem_cons_self _ _)
    have h2 := ih (fun x hx => hw x (List.mem_cons_of_mem _ hx))
    rw [totalWeight_cons]
    simp only [expand, List.length_append, List.length_replicate]
    push_cast
    rw [h2, Int.toNat_of_nonneg h1]

theorem expand_block (servers : List Server) (hw : ∀ sv ∈ servers, 0 ≤ sv.weight)
    (i : Nat) (hi : i < servers.length) (j : Nat) (hj : (j : Int) < servers[i].weight) :
    (expand servers)[(totalWeight (servers.take i)).toNat + j]? = some servers[i].ip := by
  induction servers generalizing i with
  | nil => simp at hi
  | cons sv rest ih =>
    have h1 := hw sv (List.mem_cons_self _ _)
    have hrest : ∀ x ∈ rest, 0 ≤ x.weight := fun x hx => hw x (List.mem_cons_of_mem _ hx)
    cases i with
    | zero =>
      simp only [List.getElem_cons_zero] at hj
      simp only [List.take_zero, expand, List.getElem_cons_zero]
      have hj' : j < sv.weight.toNat := by omega
      rw [show (totalWeight []).toNat = 0 from rfl, Nat.zero_add,
        List.getElem?_append_left (by simpa using hj'), List.getElem?_replicate, if_pos hj']
    | succ i =>
      simp only [List.getElem_cons_succ] at hj
      have hi' : i < rest.length := by simpa using hi
      have htake : ∀ x ∈ rest.take i, 0 ≤ x.weight :=
        fun x hx => hrest x (List.mem_of_mem_take hx)
      have h2 := totalWeight_nonneg (rest.take i) htake
      simp only [List.take_succ_cons, expand, List.getElem_cons_succ, totalWeight_cons]
      have hoff : (sv.weight + totalWeight (rest.take i)).toNat + j
          = sv.weight.toNat + ((totalWeight (rest.take i)).toNat + j) := by omega
      rw [hoff, List.getElem?_append_right (by simp)]
      simp only [List.length_replicate, Nat.add_sub_cancel_left]
      exact ih hrest i hi' hj

/-! ## The owners of the slots -/

theorem slotsFrom_mem (a : Nat) (servers : List Server) (x : Nat)
    (hx : x ∈ slotsFrom a servers) : a ≤ x ∧ x < a + servers.length := by
  induction servers generalizing a with
  | nil => simp [slotsFrom] at hx
  | cons sv rest ih =>
    simp only [slotsFrom, List.mem_append, List.mem_replicate] at hx
    rcases hx with ⟨_, h⟩ | h
    · subst h; simp
    · have := ih (a + 1) h
      simp only [List.length_cons]; omega

theorem slotsFrom_length (a : Nat) (servers : List Server) :
    (slotsFrom a servers).length = (expand servers).length := by
  induction servers generalizing a with
  | nil => rfl
  | cons sv rest ih => simp [slotsFrom, expand, ih]

theorem expand_eq_map_slotsFrom (a : Nat) (servers : List Server) :
    expand servers = (slotsFrom a servers).map (fun i => (servers.getD (i - a) ⟨"", 0⟩).ip) := by
  induction servers generalizing a with
  | nil => rfl
  | cons sv rest ih =>
    simp only [expand, slotsFrom, List.map_append, List.map_replicate, Nat.sub_self,
      List.getD_cons_zero]
    congr 1
    rw [ih (a + 1)]
    apply List.map_congr_left
    intro x hx
    have hx' := slotsFrom_mem (a + 1) rest x hx
    have hsub : x - a = (x - (a + 1)) + 1 := by omega
    rw [hsub, List.getD_cons_succ]

theorem slotsFrom_count (a : Nat) (servers : List Server) (i : Nat)
    (hi : i < servers.length) :
    (slotsFrom a servers).count (a + i) = servers[i].weight.toNat := by
  induction servers generalizing a i with
  | nil => simp at hi
  | cons sv rest ih =>
    simp only [slotsFrom, List.count_append, List.count_replicate]
    cases i with
    | zero =>
      have h0 : (slotsFrom (a + 1) rest).count a = 0 := by
        apply List.count_eq_zero_of_not_mem
        intro hmem
        have := slotsFrom_mem (a + 1) rest a hmem
        omega
      simp [h0]
    | succ i =>
      have hi' : i < rest.length := by simpa using hi
      have hne : ¬ a = a + (i + 1) := by omega
      have h := ih (a + 1) i hi'
      have hidx : a + 1 + i = a + (i + 1) := by omega
      rw [hidx] at h
      simp [hne, h]

theorem slots_length (servers : List Server) :
    (slots servers).length = (expand servers).length := slotsFrom_length 0 servers

theorem slots_count (servers : List Server) (i : Nat) (hi : i < servers.length) :
    (slots servers).count i = servers[i].weight.toNat := by
  have := slotsFrom_count 0 servers i hi
  rwa [Nat.zero_add] at this

theorem expand_eq_map_slots (servers : List Server) :
    expand servers = (slots servers).map (fun i => (servers.getD i ⟨"", 0⟩).ip) := by
  have := expand_eq_map_slotsFrom 0 servers
  simpa using this

/-! ## The machine loop agrees with the exact loop while nothing overflows -/

theorem wt_le_totalWeight (servers : List Server) (hw : ∀ sv ∈ servers, 1 ≤ sv.weight)
    (i : Nat) (hi : i < servers.length) : wt servers i ≤ totalWeight servers := by
  rw [totalWeight_eq_sum]
  exact Finset.single_le_sum
    (fun j hj => by have := wt_pos servers hw j (Finset.mem_range.mp hj); omega)
    (Finset.mem_range.mpr hi)

theorem foldl_wrap_weight (intBits : Nat) (hb : 0 < intBits) (servers : List Server)
    (hw : ∀ sv ∈ servers, 0 ≤ sv.weight) (acc : Int) (hacc : 0 ≤ acc)
    (hfit : acc + totalWeight servers < 2 ^ (intBits - 1)) :
    servers.foldl (fun total sv => wrapInt intBits (total + sv.weight)) acc
      = acc + totalWeight servers := by
  induction servers generalizing acc with
  | nil => simp [totalWeight]
  | cons sv rest ih =>
    have h1 := hw sv (List.mem_cons_self _ _)
    have hrest : ∀ x ∈ rest, 0 ≤ x.weight := fun x hx => hw x (List.mem_cons_of_mem _ hx)
    have h2 := totalWeight_nonneg rest hrest
    rw [totalWeight_cons] at hfit
    have hN : (0 : Int) < 2 ^ (intBits - 1) := by positivity
    rw [List.foldl_cons, wrapInt_eq_self intBits _ hb (by omega) (by omega),
      ih hrest _ (by omega) (by omega), totalWeight_cons]
    ring

namespace SmoothWeightRoundRobin

theorem total_eq_totalWeight (intBits : Nat) (hb : 0 < intBits) (servers : List Server)
    (hw : ∀ sv ∈ servers, 0 ≤ sv.weight) (hfit : totalWeight servers < 2 ^ (intBits - 1)) :
    total intBits servers = totalWeight servers := by
  unfold total
  rw [foldl_wrap_weight intBits hb servers hw 0 (le_refl _) (by omega), zero_add]

theorem scan_eq_exact (intBits : Nat) (servers : List Server) (cur : List Int)
    (hlen : cur.length = servers.length)
    (hrange : ∀ i, i < servers.length →
      wrapInt intBits (cur.getD i 0 + wt servers i) = cur.getD i 0 + wt servers i) :
    scan intBits servers cur = scanExact servers cur := by
  have hm : ∀ m, m ≤ servers.length →
      (List.range m).foldl (scanStep intBits servers) (cur, 0, 0) = scanUpTo servers cur m := by
    intro m
    induction m with
    | zero => intro _; rfl
    | succ m ih =>
      intro hle
      rw [List.range_succ, List.foldl_append, ih (by omega), scanUpTo_succ]
      have inv := scanUpTo_inv servers cur m (by omega)
      have htodo := inv.todo m (le_refl _)
      simp only [List.foldl_cons, List.foldl_nil]
      unfold scanStep scanStepExact
      simp only [show (servers.getD m ⟨"", 0⟩).weight = wt servers m from rfl, htodo,
        hrange m (by omega)]
  exact hm servers.length (le_refl _)

theorem runInv_upper (servers : List Server) (k : Nat) (idxs : List Nat) (cur : List Int)
    (inv : RunInv servers k idxs cur) (i : Nat) (hi : i < servers.length) :
    cur.getD i 0 ≤ ((servers.length : Int) - 1) * totalWeight servers := by
  have hsum := runInv_sum servers k idxs cur inv
  have hmem : i ∈ Finset.range servers.length := Finset.mem_range.mpr hi
  rw [← Finset.add_sum_erase _ _ hmem] at hsum
  have hlow : ∑ j in (Finset.range servers.length).erase i, (-totalWeight servers)
      ≤ ∑ j in (Finset.range servers.length).erase i, cur.getD j 0 := by
    apply Finset.sum_le_sum
    intro j hj
    have hj' : j < servers.length := Finset.mem_range.mp (Finset.mem_of_mem_erase hj)
    have := inv.low j hj'
    omega
  rw [Finset.sum_const, Finset.card_erase_of_mem hmem, Finset.card_range] at hlow
  simp only [nsmul_eq_mul] at hlow
  have hcast : ((servers.length - 1 : Nat) : Int) = (servers.length : Int) - 1 := by
    omega
  rw [hcast] at hlow
  have hmul : ((servers.length : Int) - 1) * -totalWeight servers
      = -(((servers.length : Int) - 1) * totalWeight servers) := by ring
  rw [hmul] at hlow
  omega

theorem select_eq_exact (intBits : Nat) (servers : List Server)
    (hw : ∀ sv ∈ servers, 1 ≤ sv.weight) (hW : 1 ≤ totalWeight servers)
    (hfit : (servers.length : Int) * totalWeight servers < 2 ^ (intBits - 1))
    (k : Nat) (idxs : List Nat) (cur : List Int) (inv : RunInv servers k idxs cur) :
    select intBits servers cur = selectExact servers cur := by
  have hN : (0 : Int) < 2 ^ (intBits - 1) := by positivity
  have hnpos : 0 < servers.length := by
    by_contra h0
    have : servers.length = 0 := by omega
    rw [this] at hfit
    have hz := totalWeight_eq_sum servers
    rw [this] at hz
    simp at hz
    omega
  have hn1 : (1 : Int) ≤ (servers.length : Int) := by exact_mod_cast hnpos
  have hnW : totalWeight servers ≤ (servers.length : Int) * totalWeight servers := by
    nlinarith
  have hb : 0 < intBits := by
    by_contra h0
    have : intBits = 0 := by omega
    rw [this] at hfit
    simp at hfit
    omega
  have hw0 : ∀ sv ∈ servers, 0 ≤ sv.weight := fun sv h => by have := hw sv h; omega
  have hup : ∀ i, i < servers.length →
      cur.getD i 0 + wt servers i ≤ (servers.length : Int) * totalWeight servers := by
    intro i hi
    have h1 := runInv_upper servers k idxs cur inv i hi
    have h2 := wt_le_totalWeight servers hw i hi
    have h3 : ((servers.length : Int) - 1) * totalWeight servers
        = (servers.length : Int) * totalWeight servers - totalWeight servers := by ring
    omega
  have hrange : ∀ i, i < servers.length →
      wrapInt intBits (cur.getD i 0 + wt servers i) = cur.getD i 0 + wt servers i := by
    intro i hi
    have h1 := inv.low i hi
    have h2 := wt_pos servers hw i hi
    have h3 := hup i hi
    exact wrapInt_eq_self intBits _ hb (by omega) (by omega)
  have htot := total_eq_totalWeight intBits hb servers hw0 (by omega)
  obtain ⟨idx, cur', hsel, hidx, _, _, _, hposi, _, _⟩ :=
    select_spec servers cur inv.len (runInv_exists_pos servers k idxs cur inv hW)
  unfold select
  rw [scan_eq_exact intBits servers cur inv.len hrange, htot]
  have hsel' := hsel
  unfold selectExact at hsel' ⊢
  have inv2 := scanUpTo_inv servers cur servers.length (by rw [inv.len])
  have hscan : scanExact servers cur = scanUpTo servers cur servers.length := rfl
  rw [hscan] at hsel' ⊢
  generalize scanUpTo servers cur servers.length = st at inv2 hsel' ⊢
  obtain ⟨cs, mx, ix⟩ := st
  simp only at hsel' ⊢
  cases hget : cs[ix]? with
  | none => rfl
  | some v =>
    rw [hget] at hsel'
    simp only [Option.some.injEq, Prod.mk.injEq] at hsel'
    obtain ⟨hix, _⟩ := hsel'
    subst hix
    have hixlt : ix < cs.length := by
      by_contra hge
      rw [List.getElem?_eq_none (by omega)] at hget
      cases hget
    have hv : v = cur.getD ix 0 + wt servers ix := by
      have h1 := inv2.done ix hidx
      simp only at h1
      rw [List.getD_eq_getElem?_getD, hget, Option.getD_some] at h1
      exact h1
    simp only
    rw [wrapInt_eq_self intBits _ hb (by
      have := hup ix hidx
      omega) (by
      have := hup ix hidx
      omega)]

theorem run_eq_exact (intBits : Nat) (servers : List Server) (hne : servers ≠ [])
    (hw : ∀ sv ∈ servers, 1 ≤ sv.weight)
    (hfit : (servers.length : Int) * totalWeight servers < 2 ^ (intBits - 1)) (k : Nat) :
    runCalls (select intBits servers) k (init servers)
      = runCalls (selectExact servers) k (init servers) := by
  have hW := totalWeight_pos servers hne hw
  induction k with
  | zero => rfl
  | succ k ih =>
    obtain ⟨idxs, cur, hrun, inv⟩ := run_inv servers hne hw k
    rw [runCalls_add, runCalls_add, ih, hrun]
    simp only [runCalls, select_eq_exact intBits servers hw hW hfit k idxs cur inv]

/-- The addresses returned are those of the selected positions. -/
theorem call_trace (intBits : Nat) (servers : List Server) (k : Nat) (cur cur' : List Int)
    (idxs : List Nat)
    (hrun : runCalls (select intBits servers) k cur = some (idxs, cur'))
    (hb : ∀ x ∈ idxs, x < servers.length) :
    runCalls (call intBits servers) k cur
      = some (idxs.map (fun i => (servers.getD i ⟨"", 0⟩).ip), cur') := by
  induction k generalizing cur idxs with
  | zero =>
    simp only [runCalls, Option.some.injEq, Prod.mk.injEq] at hrun
    obtain ⟨h1, h2⟩ := hrun
    subst h1; subst h2; rfl
  | succ k ih =>
    simp only [runCalls] at hrun
    cases hs : select intBits servers cur with
    | none => rw [hs] at hrun; cases hrun
    | some p =>
      obtain ⟨idx, c1⟩ := p
      rw [hs] at hrun
      simp only at hrun
      cases h1 : runCalls (select intBits servers) k c1 with
      | none => rw [h1] at hrun; cases hrun
      | some q =>
        obtain ⟨rs, c2⟩ := q
        rw [h1] at hrun
        simp only [Option.some.injEq, Prod.mk.injEq] at hrun
        obtain ⟨e1, e2⟩ := hrun
        subst e1; subst e2
        have hidx : idx < servers.length := hb idx (List.mem_cons_self _ _)
        have hrs : ∀ x ∈ rs, x < servers.length := fun x hx => hb x (List.mem_cons_of_mem _ hx)
        have hcall : call intBits servers cur = some ((servers.getD idx ⟨"", 0⟩).ip, c1) := by
          unfold call
          rw [hs]
          simp only [List.getElem?_eq_getElem hidx, List.getD_eq_getElem?_getD,
            Option.getD_some]
        simp only [runCalls, hcall, ih c1 rs h1 hrs, List.map_cons]

end SmoothWeightRoundRobin

/-! ## SmoothWeightRoundRobin: proportion and step -/

theorem fit_pos (intBits : Nat) (n W : Int) (hn : 1 ≤ n) (hW : 1 ≤ W)
    (hfit : n * W < 2 ^ (intBits - 1)) : 0 < intBits ∧ W < 2 ^ (intBits - 1) := by
  have hnW : W ≤ n * W := by nlinarith
  refine ⟨?_, by omega⟩
  by_contra h0
  have : intBits = 0 := by omega
  rw [this] at hfit
  simp at hfit
  omega

/-- C1, as stated, fails: with a 64-bit `int` the pool A, B with both weights
`MaxInt64 = 9223372036854775807` has weights at least 1 and total weight
18446744073709551614, but the captured `total` wraps to -2, and in the first
18446744073709551614 calls position 0 is selected 9223372036854775808 times
and position 1 only 9223372036854775806 times; `current` ends as `[2, -2]`. -/
theorem smoothWeightRoundRobin_overflow_counterexample :
    SmoothWeightRoundRobin.total 64
        [⟨"A", 9223372036854775807⟩, ⟨"B", 9223372036854775807⟩] = -2 ∧
    ∃ idxs,
      runCalls
          (SmoothWeightRoundRobin.select 64
            [⟨"A", 9223372036854775807⟩, ⟨"B", 9223372036854775807⟩])
          18446744073709551614
          (SmoothWeightRoundRobin.init [⟨"A", 9223372036854775807⟩, ⟨"B", 9223372036854775807⟩])
        = some (idxs, [2, -2]) ∧
      idxs.count 0 = 9223372036854775808 ∧ idxs.count 1 = 9223372036854775806 := by
  refine ⟨by decide, 0 :: (alternate 0 1 9223372036854775806 ++ [0]), ?_, ?_, ?_⟩
  · have e : (18446744073709551614 : Nat) = 1 + (2 * 9223372036854775806 + 1) := by norm_num
    rw [e]
    exact runCalls_lead_cycle2 _ _ [-9223372036854775807, 9223372036854775807] [2, -2] 0 0 1
      (by decide) (by decide) (by decide) 9223372036854775806
  · rw [List.count_cons, List.count_append, count_alternate]
    simp
  · rw [List.count_cons, List.count_append, count_alternate]
    simp

/-- C1, amended. SmoothWeightRoundRobin on an `int` of `intBits` bits: on a
non-empty pool of `n` servers whose weights are all at least 1 and with
`n * total` at most the largest `int` (so that no addition overflows), the
first `k * total` calls of a fresh selector (`k = 1`: the first `total` calls)
all return, select pool position `i` exactly `k * weight_i` times for every
`i`, return the addresses of the selected positions, and leave `current` all
zero again. -/
theorem smoothWeightRoundRobin_exact_proportion (intBits : Nat) (servers : List Server)
    (hne : servers ≠ []) (hw : ∀ sv ∈ servers, 1 ≤ sv.weight)
    (hfit : (servers.length : Int) * totalWeight servers < 2 ^ (intBits - 1)) (k : Nat) :
    SmoothWeightRoundRobin.total intBits servers = totalWeight servers ∧
    ∃ idxs,
      runCalls (SmoothWeightRoundRobin.select intBits servers)
          (k * (totalWeight servers).toNat) (SmoothWeightRoundRobin.init servers)
        = some (idxs, SmoothWeightRoundRobin.init servers) ∧
      runCalls (SmoothWeightRoundRobin.call intBits servers)
          (k * (totalWeight servers).toNat) (SmoothWeightRoundRobin.init servers)
        = some (idxs.map (fun i => (servers.getD i ⟨"", 0⟩).ip),
            SmoothWeightRoundRobin.init servers) ∧
      (∀ x ∈ idxs, x < servers.length) ∧
      ∀ (i : Nat) (hi : i < servers.length),
        (idxs.count i : Int) = (k : Int) * servers[i].weight := by
  have hW := totalWeight_pos servers hne hw
  have hn1 : (1 : Int) ≤ (servers.length : Int) := by
    exact_mod_cast List.length_pos.mpr hne
  obtain ⟨hb, hWfit⟩ := fit_pos intBits _ _ hn1 hW hfit
  have hw0 : ∀ sv ∈ servers, 0 ≤ sv.weight := fun sv h => by have := hw sv h; omega
  obtain ⟨idxs, hrun, hbnd, hc⟩ := SmoothWeightRoundRobin.run_periods servers hne hw k
  rw [← SmoothWeightRoundRobin.run_eq_exact intBits servers hne hw hfit] at hrun
  refine ⟨SmoothWeightRoundRobin.total_eq_totalWeight intBits hb servers hw0 hWfit, idxs, hrun,
    SmoothWeightRoundRobin.call_trace intBits servers _ _ _ idxs hrun hbnd, hbnd, ?_⟩
  intro i hi
  rw [hc i hi, wt_eq_getElem servers i hi]

theorem smoothWeightRoundRobin_exact_proportion_witness :
    ∃ idxs,
      runCalls (SmoothWeightRoundRobin.select 64 [⟨"192.168.0.1", 3⟩, ⟨"192.168.0.2", 1⟩]) 10000
          [0, 0] = some (idxs, [0, 0]) ∧
      runCalls (SmoothWeightRoundRobin.call 64 [⟨"192.168.0.1", 3⟩, ⟨"192.168.0.2", 1⟩]) 10000
          [0, 0]
        = some (idxs.map (fun i =>
            (([⟨"192.168.0.1", 3⟩, ⟨"192.168.0.2", 1⟩] : List Server).getD i ⟨"", 0⟩).ip),
            [0, 0]) ∧
      idxs.count 0 = 7500 ∧ idxs.count 1 = 2500 := by
  obtain ⟨_, idxs, h1, h2, _, h4⟩ :=
    smoothWeightRoundRobin_exact_proportion 64 [⟨"192.168.0.1", 3⟩, ⟨"192.168.0.2", 1⟩]
      (by decide) (by decide) (by decide) 2500
  refine ⟨idxs, h1, h2, ?_, ?_⟩
  · have := h4 0 (by decide)
    simp only [List.getElem_cons_zero] at this
    omega
  · have := h4 1 (by decide)
    simp only [List.getElem_cons_succ, List.getElem_cons_zero] at this
    omega

/-- C5, as stated, fails with a 64-bit `int`. On the pool A, B with both
weights `MaxInt64` the state `[-MaxInt64, MaxInt64]` is reached by one call;
there position 1 has the larger incremented value (`2 * MaxInt64` against 0),
yet the call selects position 0, returns A and leaves `[2, -2]`. On the pool
A, B, C with all weights `MaxInt64` the state `[2, MaxInt64, MaxInt64]` is
reached by one call; its incremented values wrap to
`[-MaxInt64, -2, -2]`, none is positive, and the call selects position 0,
which holds the smallest of them. -/
theorem smoothWeightRoundRobin_step_counterexample :
    (runCalls
        (SmoothWeightRoundRobin.select 64
          [⟨"A", 9223372036854775807⟩, ⟨"B", 9223372036854775807⟩]) 1
        (SmoothWeightRoundRobin.init [⟨"A", 9223372036854775807⟩, ⟨"B", 9223372036854775807⟩])
      = some ([0], [-9223372036854775807, 9223372036854775807]) ∧
    SmoothWeightRoundRobin.call 64
        [⟨"A", 9223372036854775807⟩, ⟨"B", 9223372036854775807⟩]
        [-9223372036854775807, 9223372036854775807] = some ("A", [2, -2]) ∧
    (-9223372036854775807 + 9223372036854775807 : Int)
      < 9223372036854775807 + 9223372036854775807) ∧
    (runCalls
        (SmoothWeightRoundRobin.select 64
          [⟨"A", 9223372036854775807⟩, ⟨"B", 9223372036854775807⟩,
            ⟨"C", 9223372036854775807⟩]) 1
        (SmoothWeightRoundRobin.init
          [⟨"A", 9223372036854775807⟩, ⟨"B", 9223372036854775807⟩,
            ⟨"C", 9223372036854775807⟩])
      = some ([0], [2, 9223372036854775807, 9223372036854775807]) ∧
    (SmoothWeightRoundRobin.scan 64
        [⟨"A", 9223372036854775807⟩, ⟨"B", 9223372036854775807⟩, ⟨"C", 9223372036854775807⟩]
        [2, 9223372036854775807, 9223372036854775807]).1 = [-9223372036854775807, -2, -2] ∧
    SmoothWeightRoundRobin.call 64
        [⟨"A", 9223372036854775807⟩, ⟨"B", 9223372036854775807⟩, ⟨"C", 9223372036854775807⟩]
        [2, 9223372036854775807, 9223372036854775807] = some ("A", [4, -2, -2])) := by
  decide

/-- C5, amended. SmoothWeightRoundRobin step on an `int` of `intBits` bits:
on a non-empty pool of `n` servers whose weights are all at least 1 and with
`n * total` at most the largest `int`, in every state reachable from the fresh
state, one call returns the address of the lowest position `j` whose
incremented value `current[j] + weight_j` is the maximum of all incremented
values, leaves `current[j] + weight_j - total` at `j` and
`current[i] + weight_i` at every other position. -/
theorem smoothWeightRoundRobin_step (intBits : Nat) (servers : List Server)
    (hne : servers ≠ []) (hw : ∀ sv ∈ servers, 1 ≤ sv.weight)
    (hfit : (servers.length : Int) * totalWeight servers < 2 ^ (intBits - 1))
    (current : List Int) (hr : SmoothWeightRoundRobin.Reachable intBits servers current) :
    ∃ (j : Nat) (current' : List Int) (hj : j < servers.length),
      SmoothWeightRoundRobin.call intBits servers current = some (servers[j].ip, current') ∧
      SmoothWeightRoundRobin.select intBits servers current = some (j, current') ∧
      current.length = servers.length ∧ current'.length = servers.length ∧
      (∀ (i : Nat) (hi : i < servers.length),
        current.getD i 0 + servers[i].weight ≤ current.getD j 0 + servers[j].weight) ∧
      (∀ (i : Nat) (hi : i < servers.length), i < j →
        current.getD i 0 + servers[i].weight < current.getD j 0 + servers[j].weight) ∧
      current'.getD j 0 = current.getD j 0 + servers[j].weight - totalWeight servers ∧
      (∀ (i : Nat) (hi : i < servers.length), i ≠ j →
        current'.getD i 0 = current.getD i 0 + servers[i].weight) := by
  obtain ⟨k, idxs, hrun⟩ := hr
  rw [SmoothWeightRoundRobin.run_eq_exact intBits servers hne hw hfit] at hrun
  obtain ⟨idxs', cur', hrun', inv⟩ := SmoothWeightRoundRobin.run_inv servers hne hw k
  rw [hrun] at hrun'
  simp only [Option.some.injEq, Prod.mk.injEq] at hrun'
  obtain ⟨e1, e2⟩ := hrun'
  subst e1; subst e2
  have hW := totalWeight_pos servers hne hw
  obtain ⟨j, cs', hsel, hj, hlen', hmax, hfirst, _, hat, hoth⟩ :=
    SmoothWeightRoundRobin.select_spec servers current inv.len
      (SmoothWeightRoundRobin.runInv_exists_pos servers k idxs current inv hW)
  rw [← SmoothWeightRoundRobin.select_eq_exact intBits servers hw hW hfit k idxs current inv]
    at hsel
  refine ⟨j, cs', hj, ?_, hsel, inv.len, hlen', ?_, ?_, ?_, ?_⟩
  · unfold SmoothWeightRoundRobin.call
    rw [hsel]
    simp only [List.getElem?_eq_getElem hj]
  · intro i hi
    rw [← wt_eq_getElem servers i hi, ← wt_eq_getElem servers j hj]
    exact hmax i hi
  · intro i hi hij
    rw [← wt_eq_getElem servers i hi, ← wt_eq_getElem servers j hj]
    exact hfirst i hij
  · rw [← wt_eq_getElem servers j hj]; exact hat
  · intro i hi hij
    rw [← wt_eq_getElem servers i hi]
    rcases hoth i hij with h | h
    · exact h
    · omega

theorem smoothWeightRoundRobin_step_witness :
    ∃ (j : Nat) (current' : List Int) (hj : j < 2),
      SmoothWeightRoundRobin.call 64 [⟨"A", 3⟩, ⟨"B", 1⟩] [-1, 1]
        = some ((([⟨"A", 3⟩, ⟨"B", 1⟩] : List Server)[j]).ip, current') ∧
      SmoothWeightRoundRobin.select 64 [⟨"A", 3⟩, ⟨"B", 1⟩] [-1, 1] = some (j, current') ∧
      ([-1, 1] : List Int).length = 2 ∧ current'.length = 2 ∧
      (∀ (i : Nat) (hi : i < 2),
        ([-1, 1] : List Int).getD i 0 + (([⟨"A", 3⟩, ⟨"B", 1⟩] : List Server)[i]).weight
          ≤ ([-1, 1] : List Int).getD j 0 + (([⟨"A", 3⟩, ⟨"B", 1⟩] : List Server)[j]).weight) ∧
      (∀ (i : Nat) (hi : i < 2), i < j →
        ([-1, 1] : List Int).getD i 0 + (([⟨"A", 3⟩, ⟨"B", 1⟩] : List Server)[i]).weight
          < ([-1, 1] : List Int).getD j 0 + (([⟨"A", 3⟩, ⟨"B", 1⟩] : List Server)[j]).weight) ∧
      current'.getD j 0 = ([-1, 1] : List Int).getD j 0
        + (([⟨"A", 3⟩, ⟨"B", 1⟩] : List Server)[j]).weight
        - totalWeight [⟨"A", 3⟩, ⟨"B", 1⟩] ∧
      (∀ (i : Nat) (hi : i < 2), i ≠ j →
        current'.getD i 0
          = ([-1, 1] : List Int).getD i 0 + (([⟨"A", 3⟩, ⟨"B", 1⟩] : List Server)[i]).weight) :=
  smoothWeightRoundRobin_step 64 [⟨"A", 3⟩, ⟨"B", 1⟩] (by decide) (by decide) (by decide)
    [-1, 1] ⟨1, [0], by decide⟩

theorem wrr_call_eq (servers : List Server) :
    WeigthRoundRobin.call servers = RoundRobin.call (expand servers) := rfl

theorem expand_ne_nil (servers : List Server) (hw : ∀ sv ∈ servers, 0 ≤ sv.weight)
    (hW : 1 ≤ totalWeight servers) : expand servers ≠ [] := by
  intro h
  have := expand_length servers hw
  rw [h] at this
  simp only [List.length_nil, Nat.cast_zero] at this
  omega

theorem position_lt (servers : List Server) (hne : expand servers ≠ []) (k : Nat) :
    WeigthRoundRobin.position servers k < servers.length := by
  unfold WeigthRoundRobin.position
  have hpos : 0 < (slots servers).length := by
    rw [slots_length]; exact List.length_pos.mpr hne
  have hk : k % (slots servers).length < (slots servers).length := Nat.mod_lt _ hpos
  rw [List.getD_eq_getElem?_getD, List.getElem?_eq_getElem hk, Option.getD_some]
  have := slotsFrom_mem 0 servers _ (List.getElem_mem hk)
  omega

theorem expand_getD (servers : List Server) (p : Nat) (hp : p < (expand servers).length) :
    (expand servers).getD p "" = (servers.getD ((slots servers).getD p 0) ⟨"", 0⟩).ip := by
  have hp' : p < (slots servers).length := by rw [slots_length]; exact hp
  have h : (expand servers)[p]? = ((slots servers).map
      (fun i => (servers.getD i ⟨"", 0⟩).ip))[p]? := by rw [← expand_eq_map_slots]
  rw [List.getElem?_map, List.getElem?_eq_getElem hp'] at h
  have hs : (slots servers).getD p 0 = (slots servers)[p] := by
    rw [List.getD_eq_getElem?_getD, List.getElem?_eq_getElem hp', Option.getD_some]
  rw [List.getD_eq_getElem?_getD, h, hs]
  rfl

theorem positions_window (servers : List Server) (m : Nat) :
    (List.range (slots servers).length).map (fun j => WeigthRoundRobin.position servers (m + j))
      = (slots servers).rotate (m % (slots servers).length) := by
  apply List.ext_getElem
  · simp
  · intro j h1 h2
    simp only [List.length_map, List.length_range] at h1
    rw [List.getElem_rotate]
    simp only [List.getElem_map, List.getElem_range, WeigthRoundRobin.position]
    have hmod : (j + m % (slots servers).length) % (slots servers).length
        = (m + j) % (slots servers).length := by
      rw [Nat.add_mod_mod, Nat.add_comm]
    have hlt : (m + j) % (slots servers).length < (slots servers).length :=
      Nat.mod_lt _ (by omega)
    rw [List.getD_eq_getElem?_getD, List.getElem?_eq_getElem hlt, Option.getD_some]
    congr 1
    exact hmod.symm

/-- C7. WeigthRoundRobin is RoundRobin over the expansion: for a pool with
non-negative weights and total weight at least 1, the expanded slice has as
many entries as the sum of the weights, the block of pool position `i` starts
after the weights of the positions before it and holds `weight_i` copies of
its address, and call number `k` of `WeigthRoundRobin(servers)` returns what
call number `k` of `RoundRobin` over the expanded slice returns, namely the
entry `k mod length` of the expanded slice. -/
theorem weigthRoundRobin_is_roundRobin_of_expand (servers : List Server)
    (hw : ∀ sv ∈ servers, 0 ≤ sv.weight) (hW : 1 ≤ totalWeight servers) :
    ((expand servers).length : Int) = totalWeight servers ∧
    (∀ (i : Nat) (hi : i < servers.length) (j : Nat), (j : Int) < servers[i].weight →
      (expand servers)[(totalWeight (servers.take i)).toNat + j]? = some servers[i].ip) ∧
    (∀ k, nthCall (WeigthRoundRobin.call servers) WeigthRoundRobin.init k
        = nthCall (RoundRobin.call (expand servers)) RoundRobin.init k ∧
      nthCall (WeigthRoundRobin.call servers) WeigthRoundRobin.init k
        = (expand servers)[k % (expand servers).length]? ∧
      k % (expand servers).length < (expand servers).length) := by
  have hne := expand_ne_nil servers hw hW
  refine ⟨expand_length servers hw, fun i hi j hj => expand_block servers hw i hi j hj,
    fun k => ⟨rfl, ?_, Nat.mod_lt _ (List.length_pos.mpr hne)⟩⟩
  rw [wrr_call_eq]
  exact rr_nthCall (expand servers) hne k

theorem weigthRoundRobin_is_roundRobin_of_expand_witness :
    ((expand [⟨"A", 2⟩, ⟨"B", 0⟩, ⟨"C", 1⟩]).length : Int)
      = totalWeight [⟨"A", 2⟩, ⟨"B", 0⟩, ⟨"C", 1⟩] ∧
    (∀ (i : Nat) (hi : i < 3) (j : Nat),
      (j : Int) < (([⟨"A", 2⟩, ⟨"B", 0⟩, ⟨"C", 1⟩] : List Server)[i]).weight →
      (expand [⟨"A", 2⟩, ⟨"B", 0⟩, ⟨"C", 1⟩])[
          (totalWeight (([⟨"A", 2⟩, ⟨"B", 0⟩, ⟨"C", 1⟩] : List Server).take i)).toNat + j]?
        = some (([⟨"A", 2⟩, ⟨"B", 0⟩, ⟨"C", 1⟩] : List Server)[i]).ip) ∧
    (∀ k, nthCall (WeigthRoundRobin.call [⟨"A", 2⟩, ⟨"B", 0⟩, ⟨"C", 1⟩]) WeigthRoundRobin.init k
        = nthCall (RoundRobin.call (expand [⟨"A", 2⟩, ⟨"B", 0⟩, ⟨"C", 1⟩])) RoundRobin.init k ∧
      nthCall (WeigthRoundRobin.call [⟨"A", 2⟩, ⟨"B", 0⟩, ⟨"C", 1⟩]) WeigthRoundRobin.init k
        = (expand [⟨"A", 2⟩, ⟨"B", 0⟩, ⟨"C", 1⟩])[
            k % (expand [⟨"A", 2⟩, ⟨"B", 0⟩, ⟨"C", 1⟩]).length]? ∧
      k % (expand [⟨"A", 2⟩, ⟨"B", 0⟩, ⟨"C", 1⟩]).length
        < (expand [⟨"A", 2⟩, ⟨"B", 0⟩, ⟨"C", 1⟩]).length) :=
  weigthRoundRobin_is_roundRobin_of_expand [⟨"A", 2⟩, ⟨"B", 0⟩, ⟨"C", 1⟩]
    (by decide) (by decide)

/-- C8. WeigthRoundRobin window proportionality: for a pool whose weights
are all at least 1 and `W` the sum of the weights, the `W` consecutive calls
that start at any call number `m` all return, call `m + j` returns the address
of the pool position it selects, and every pool position `i` is selected
exactly `weight_i` times in the window. -/
theorem weigthRoundRobin_window (servers : List Server)
    (hw : ∀ sv ∈ servers, 1 ≤ sv.weight) (m i : Nat) (hi : i < servers.length) :
    window (WeigthRoundRobin.call servers) WeigthRoundRobin.init m (totalWeight servers).toNat
      = some ((List.range (totalWeight servers).toNat).map (fun j =>
          (servers.getD (WeigthRoundRobin.position servers (m + j)) ⟨"", 0⟩).ip)) ∧
    (∀ j, WeigthRoundRobin.position servers (m + j) < servers.length) ∧
    (((List.range (totalWeight servers).toNat).map
        (fun j => WeigthRoundRobin.position servers (m + j))).count i : Int)
      = servers[i].weight := by
  have hne0 : servers ≠ [] := by
    intro h; rw [h] at hi; simp at hi
  have hw0 : ∀ sv ∈ servers, 0 ≤ sv.weight := fun sv h => by have := hw sv h; omega
  have hW := totalWeight_pos servers hne0 hw
  have hne := expand_ne_nil servers hw0 hW
  have hlen : (totalWeight servers).toNat = (expand servers).length := by
    have := expand_length servers hw0; omega
  have hslen : (slots servers).length = (expand servers).length := slots_length servers
  have hpos : 0 < (expand servers).length := List.length_pos.mpr hne
  refine ⟨?_, fun j => position_lt servers hne _, ?_⟩
  · rw [hlen, wrr_call_eq]
    unfold window
    rw [show WeigthRoundRobin.init = 0 from rfl, rr_run _ m 0 hpos]
    simp only [Nat.zero_add, rr_run _ _ _ (Nat.mod_lt m hpos)]
    congr 1
    apply List.map_congr_left
    intro j _
    rw [Nat.mod_add_mod, expand_getD servers _ (Nat.mod_lt _ hpos)]
    unfold WeigthRoundRobin.position
    rw [hslen]
  · rw [hlen, ← hslen, positions_window, (List.rotate_perm _ _).count_eq, slots_count servers i hi]
    have := hw0 _ (List.getElem_mem hi)
    omega

theorem weigthRoundRobin_window_witness :
    window (WeigthRoundRobin.call [⟨"A", 3⟩, ⟨"B", 1⟩]) WeigthRoundRobin.init 2
        (totalWeight [⟨"A", 3⟩, ⟨"B", 1⟩]).toNat
      = some ((List.range (totalWeight [⟨"A", 3⟩, ⟨"B", 1⟩]).toNat).map (fun j =>
          (([⟨"A", 3⟩, ⟨"B", 1⟩] : List Server).getD
            (WeigthRoundRobin.position [⟨"A", 3⟩, ⟨"B", 1⟩] (2 + j)) ⟨"", 0⟩).ip)) ∧
    (∀ j, WeigthRoundRobin.position [⟨"A", 3⟩, ⟨"B", 1⟩] (2 + j) < 2) ∧
    (((List.range (totalWeight [⟨"A", 3⟩, ⟨"B", 1⟩]).toNat).map
        (fun j => WeigthRoundRobin.position [⟨"A", 3⟩, ⟨"B", 1⟩] (2 + j))).count 0 : Int)
      = 3 :=
  weigthRoundRobin_window [⟨"A", 3⟩, ⟨"B", 1⟩] (by decide) 2 0 (by decide)

/-! ## LeastResponseTime -/

theorem average_of_stat (l : LoadBalancer) (s : String) (r : RT)
    (hr : l.rt.lookup s = some r) (hc : 1 ≤ r.count) :
    l.average s = some (Int.tdiv r.total r.count) ∧ l.stat s = r := by
  unfold LoadBalancer.average LoadBalancer.stat goDiv
  rw [hr]
  have : r.count ≠ 0 := by omega
  simp [this]

theorem leastLoop_spec (l : LoadBalancer) (rest pre : List String) (j : Nat) (s : String)
    (a : Int) (hs : pre[j]? = some s) (ha : l.average s = some a)
    (hpre : ∀ (i : Nat) (t : String), pre[i]? = some t →
      ∃ b, l.average t = some b ∧ a ≤ b ∧ (i < j → a < b))
    (hrest : ∀ t ∈ rest, ∃ b, l.average t = some b) :
    ∃ (j' : Nat) (s' : String) (a' : Int), l.leastLoop rest a s = some s' ∧
      (pre ++ rest)[j']? = some s' ∧ l.average s' = some a' ∧
      ∀ (i : Nat) (t : String), (pre ++ rest)[i]? = some t →
        ∃ b, l.average t = some b ∧ a' ≤ b ∧ (i < j' → a' < b) := by
  induction rest generalizing pre j s a with
  | nil =>
    exact ⟨j, s, a, rfl, by simpa using hs, ha, by simpa using hpre⟩
  | cons x rest ih =>
    have hjlt : j < pre.length := by
      by_contra hge
      rw [List.getElem?_eq_none (by omega)] at hs
      cases hs
    obtain ⟨bx, hbx⟩ := hrest x (List.mem_cons_self _ _)
    have hrest' : ∀ t ∈ rest, ∃ b, l.average t = some b :=
      fun t ht => hrest t (List.mem_cons_of_mem _ ht)
    have happ : pre ++ x :: rest = (pre ++ [x]) ++ rest := by simp
    have hsplit : ∀ (i : Nat) (t : String), (pre ++ [x])[i]? = some t →
        (i < pre.length ∧ pre[i]? = some t) ∨ (i = pre.length ∧ t = x) := by
      intro i t hit
      by_cases hi : i < pre.length
      · left
        rw [List.getElem?_append_left hi] at hit
        exact ⟨hi, hit⟩
      · right
        rw [List.getElem?_append_right (by omega)] at hit
        by_cases hi0 : i - pre.length = 0
        · rw [hi0] at hit
          simp only [List.getElem?_cons_zero, Option.some.injEq] at hit
          exact ⟨by omega, hit.symm⟩
        · obtain ⟨n, hn⟩ := Nat.exists_eq_succ_of_ne_zero hi0
          rw [hn] at hit
          simp at hit
    rw [happ]
    simp only [LoadBalancer.leastLoop, hbx]
    by_cases hlt : bx < a
    · simp only [hlt, if_true]
      apply ih (pre ++ [x]) pre.length x bx
      · rw [List.getElem?_append_right (le_refl _)]; simp
      · exact hbx
      · intro i t hit
        rcases hsplit i t hit with ⟨hi, hpi⟩ | ⟨hi, ht⟩
        · obtain ⟨b, hb, hab, _⟩ := hpre i t hpi
          exact ⟨b, hb, by omega, fun _ => by omega⟩
        · subst ht
          exact ⟨bx, hbx, le_refl _, fun h => by omega⟩
      · exact hrest'
    · simp only [hlt, if_false]
      apply ih (pre ++ [x]) j s a
      · rw [List.getElem?_append_left hjlt]; exact hs
      · exact ha
      · intro i t hit
        rcases hsplit i t hit with ⟨hi, hpi⟩ | ⟨hi, ht⟩
        · exact hpre i t hpi
        · subst ht
          exact ⟨bx, hbx, by omega, fun h => by omega⟩
      · exact hrest'

/-- C4. LeastResponseTime: on a non-empty server list in which every listed
server has a stats entry with count at least 1 and total at least 0, the
method returns `servers[j]` for the lowest index `j` that minimises the
integer quotient `total / count`: no listed server has a smaller quotient and
every server at a lower index has a strictly larger one. -/
theorem leastResponseTime_lowest_minimum (l : LoadBalancer) (hne : l.servers ≠ [])
    (hstats : ∀ s ∈ l.servers, ∃ r, l.rt.lookup s = some r ∧ 1 ≤ r.count ∧ 0 ≤ r.total) :
    ∃ (j : Nat) (hj : j < l.servers.length),
      l.LeastResponseTime = some l.servers[j] ∧
      (∀ (i : Nat) (hi : i < l.servers.length),
        Int.tdiv (l.stat l.servers[j]).total (l.stat l.servers[j]).count
          ≤ Int.tdiv (l.stat l.servers[i]).total (l.stat l.servers[i]).count) ∧
      (∀ (i : Nat) (hi : i < l.servers.length), i < j →
        Int.tdiv (l.stat l.servers[j]).total (l.stat l.servers[j]).count
          < Int.tdiv (l.stat l.servers[i]).total (l.stat l.servers[i]).count) := by
  have havg : ∀ s ∈ l.servers,
      l.average s = some (Int.tdiv (l.stat s).total (l.stat s).count) := by
    intro s hs
    obtain ⟨r, hr, hc, _⟩ := hstats s hs
    obtain ⟨h1, h2⟩ := average_of_stat l s r hr hc
    rw [h2]; exact h1
  cases hsv : l.servers with
  | nil => exact absurd hsv hne
  | cons s0 rest =>
    rw [hsv] at havg
    have h0 := havg s0 (List.mem_cons_self _ _)
    obtain ⟨j, s', a', hloop, hget, hs', hall⟩ :=
      leastLoop_spec l rest [s0] 0 s0 _ rfl h0
        (by
          intro i t hit
          cases i with
          | zero =>
            simp only [List.getElem?_cons_zero, Option.some.injEq] at hit
            subst hit
            exact ⟨_, h0, le_refl _, fun h => absurd h (Nat.lt_irrefl 0)⟩
          | succ i => simp at hit)
        (fun t ht => ⟨_, havg t (List.mem_cons_of_mem _ ht)⟩)
    simp only [List.singleton_append] at hget hall
    have hj : j < (s0 :: rest).length := by
      by_contra hge
      rw [List.getElem?_eq_none (by omega)] at hget
      cases hget
    have hsj : (s0 :: rest)[j] = s' := by
      rw [List.getElem?_eq_getElem hj] at hget
      exact Option.some.inj hget
    have hq : ∀ (i : Nat) (hi : i < (s0 :: rest).length),
        l.average (s0 :: rest)[i]
          = some (Int.tdiv (l.stat (s0 :: rest)[i]).total (l.stat (s0 :: rest)[i]).count) :=
      fun i hi => havg _ (List.getElem_mem hi)
    have ha' : a' = Int.tdiv (l.stat (s0 :: rest)[j]).total (l.stat (s0 :: rest)[j]).count := by
      have := hq j hj
      rw [hsj, hs'] at this
      rw [hsj]
      exact Option.some.inj this
    refine ⟨j, hj, ?_, ?_, ?_⟩
    · unfold LoadBalancer.LeastResponseTime
      rw [hsv]
      simp only [h0, hloop, hsj]
    · intro i hi
      obtain ⟨b, hb, hab, _⟩ := hall i _ (List.getElem?_eq_getElem hi)
      rw [hq i hi] at hb
      rw [← ha', Option.some.inj hb]
      exact hab
    · intro i hi hij
      obtain ⟨b, hb, _, hlt⟩ := hall i _ (List.getElem?_eq_getElem hi)
      rw [hq i hi] at hb
      rw [← ha', Option.some.inj hb]
      exact hlt hij

theorem leastResponseTime_lowest_minimum_witness :
    ∃ (j : Nat) (hj : j < 2),
      LoadBalancer.LeastResponseTime
          ⟨["192.168.0.1", "192.168.0.2"],
            [("192.168.0.1", ⟨10, 1000⟩), ("192.168.0.2", ⟨10, 2000⟩)]⟩
        = some (["192.168.0.1", "192.168.0.2"][j]) ∧ j = 0 := by
  obtain ⟨j, hj, h1, _, _⟩ := leastResponseTime_lowest_minimum
    ⟨["192.168.0.1", "192.168.0.2"],
      [("192.168.0.1", ⟨10, 1000⟩), ("192.168.0.2", ⟨10, 2000⟩)]⟩
    (by decide) (by decide)
  refine ⟨j, hj, h1, ?_⟩
  have h2 : LoadBalancer.LeastResponseTime
      ⟨["192.168.0.1", "192.168.0.2"],
        [("192.168.0.1", ⟨10, 1000⟩), ("192.168.0.2", ⟨10, 2000⟩)]⟩ = some "192.168.0.1" := by
    decide
  rw [h2] at h1
  simp only [List.length_cons, List.length_nil] at hj
  have hj' : j = 0 ∨ j = 1 := by omega
  rcases hj' with h | h
  · exact h
  · subst h
    simp at h1

/-! ## HashLoadBalance -/

theorem fnvWrite_lt (hash : Nat) (data : Bytes) (h : hash < 2 ^ 32) :
    fnvWrite hash data < 2 ^ 32 := by
  unfold fnvWrite
  induction data generalizing hash with
  | nil => exact h
  | cons c rest ih =>
    rw [List.foldl_cons]
    apply ih
    apply Nat.xor_lt_two_pow (Nat.mod_lt _ (by norm_num))
    have := c.isLt
    omega

theorem fnvSum32_lt (key : Bytes) : fnvSum32 key < 2 ^ 32 :=
  fnvWrite_lt offset32 key (by decide)

theorem toInt_of_lt (intBits h : Nat) (hbits : 32 < intBits) (hh : h < 2 ^ 32) :
    toInt intBits h = (h : Int) := by
  have h1 : 2 ^ 32 ≤ 2 ^ (intBits - 1) := Nat.pow_le_pow_right (by norm_num) (by omega)
  have h2 : 2 ^ (intBits - 1) ≤ 2 ^ intBits := Nat.pow_le_pow_right (by norm_num) (by omega)
  have hv : h % 2 ^ intBits = h := Nat.mod_eq_of_lt (by omega)
  unfold toInt
  simp only [hv]
  rw [if_pos (by omega)]

theorem hashLoadBalance_eq (intBits : Nat) (hbits : 32 < intBits) (servers : List String)
    (hne : servers ≠ []) (key : Bytes) :
    HashLoadBalance intBits servers key = servers[fnvSum32 key % servers.length]? := by
  have hlen : servers.length ≠ 0 := fun h => hne (List.length_eq_zero.mp h)
  unfold HashLoadBalance indexInt
  simp only [hlen, if_false, toInt_of_lt intBits _ hbits (fnvSum32_lt key)]
  rw [← Int.ofNat_tmod]
  have hnn : ¬ ((fnvSum32 key % servers.length : Nat) : Int) < 0 := by omega
  rw [if_neg hnn, Int.toNat_ofNat]

/-- C9. HashLoadBalance affinity: the closure keeps no state, so whatever
keys it was called with before, a call with `key` returns what
`HashLoadBalance` computes from the pool and the key alone; with an `int` of
more than 32 bits and a non-empty pool that is an address of the pool. -/
theorem hashLoadBalance_affinity (intBits : Nat) (servers : List String) (hne : servers ≠ [])
    (key : Bytes) (before₁ before₂ : List Bytes) :
    (hashCalls intBits servers (before₁ ++ [key])).getLast?
      = (hashCalls intBits servers (before₂ ++ [key])).getLast? ∧
    (hashCalls intBits servers (before₁ ++ [key])).getLast?
      = some (HashLoadBalance intBits servers key) ∧
    (32 < intBits → ∃ a ∈ servers, HashLoadBalance intBits servers key = some a) := by
  have hlast : ∀ before : List Bytes,
      (hashCalls intBits servers (before ++ [key])).getLast?
        = some (HashLoadBalance intBits servers key) := by
    intro before
    unfold hashCalls
    rw [List.map_append, List.map_singleton, List.getLast?_append]
    rfl
  refine ⟨by rw [hlast, hlast], hlast _, ?_⟩
  intro hbits
  have hpos : 0 < servers.length := List.length_pos.mpr hne
  have hi : fnvSum32 key % servers.length < servers.length := Nat.mod_lt _ hpos
  refine ⟨servers[fnvSum32 key % servers.length], List.getElem_mem hi, ?_⟩
  rw [hashLoadBalance_eq intBits hbits servers hne key, List.getElem?_eq_getElem hi]

theorem hashLoadBalance_affinity_witness :
    (hashCalls 64 ["a", "b"] ([] ++ [[97, 98, 99]])).getLast?
      = (hashCalls 64 ["a", "b"] ([[120], [97, 98, 99], []] ++ [[97, 98, 99]])).getLast? ∧
    (hashCalls 64 ["a", "b"] ([] ++ [[97, 98, 99]])).getLast?
      = some (HashLoadBalance 64 ["a", "b"] [97, 98, 99]) ∧
    (32 < 64 → ∃ a ∈ ["a", "b"], HashLoadBalance 64 ["a", "b"] [97, 98, 99] = some a) :=
  hashLoadBalance_affinity 64 ["a", "b"] (by decide) [97, 98, 99] [] [[120], [97, 98, 99], []]

/-- C10, as stated, fails: the pools `["a", "b"]` and `["b", "a"]` are
permutations of each other, and for the key "abc" (hash 1134309195, index 1)
the first returns "b" and the second returns "a". -/
theorem hashLoadBalance_order_counterexample :
    List.Perm ["a", "b"] ["b", "a"] ∧
    fnvSum32 [97, 98, 99] = 1134309195 ∧
    HashLoadBalance 64 ["a", "b"] [97, 98, 99] = some "b" ∧
    HashLoadBalance 64 ["b", "a"] [97, 98, 99] = some "a" ∧
    HashLoadBalance 64 ["a", "b"] [97, 98, 99] ≠ HashLoadBalance 64 ["b", "a"] [97, 98, 99] :=
  ⟨List.Perm.swap _ _ _, by decide, by decide, by decide, by decide⟩

/-- C10, amended. For a key and two pools that are permutations of each other,
the first non-empty, `HashLoadBalance` with an `int` of more than 32 bits reads
the same index `i = h mod n` in both pools and returns the address each pool
holds there, an address of the common membership; the two results are equal
exactly when the pools hold the same address at index `i`. -/
theorem hashLoadBalance_same_index (intBits : Nat) (hbits : 32 < intBits) (key : Bytes)
    (p q : List String) (hp : p ≠ []) (hperm : p.Perm q) :
    fnvSum32 key % p.length < p.length ∧ fnvSum32 key % p.length < q.length ∧
    HashLoadBalance intBits p key = p[fnvSum32 key % p.length]? ∧
    HashLoadBalance intBits q key = q[fnvSum32 key % p.length]? ∧
    (∃ a b, a ∈ p ∧ a ∈ q ∧ b ∈ p ∧ b ∈ q ∧
      HashLoadBalance intBits p key = some a ∧ HashLoadBalance intBits q key = some b) ∧
    (HashLoadBalance intBits p key = HashLoadBalance intBits q key ↔
      p[fnvSum32 key % p.length]? = q[fnvSum32 key % p.length]?) := by
  have hlen : p.length = q.length := hperm.length_eq
  have hq : q ≠ [] := by
    intro h; rw [h] at hlen
    exact hp (List.length_eq_zero.mp hlen)
  have hpos : 0 < p.length := List.length_pos.mpr hp
  have h1 := hashLoadBalance_eq intBits hbits p hp key
  have h2 := hashLoadBalance_eq intBits hbits q hq key
  rw [← hlen] at h2
  have hip : fnvSum32 key % p.length < p.length := Nat.mod_lt _ hpos
  have hiq : fnvSum32 key % p.length < q.length := by rw [← hlen]; exact hip
  refine ⟨hip, hiq, h1, h2, ?_, ?_⟩
  · refine ⟨p[fnvSum32 key % p.length], q[fnvSum32 key % p.length],
      List.getElem_mem hip, hperm.subset (List.getElem_mem hip),
      hperm.symm.subset (List.getElem_mem hiq), List.getElem_mem hiq, ?_, ?_⟩
    · rw [h1, List.getElem?_eq_getElem hip]
    · rw [h2, List.getElem?_eq_getElem hiq]
  · rw [h1, h2]

theorem hashLoadBalance_same_index_witness :
    fnvSum32 [97, 98, 99] % ["a", "b", "c"].length < ["a", "b", "c"].length ∧
    fnvSum32 [97, 98, 99] % ["a", "b", "c"].length < ["c", "b", "a"].length ∧
    HashLoadBalance 64 ["a", "b", "c"] [97, 98, 99]
      = ["a", "b", "c"][fnvSum32 [97, 98, 99] % ["a", "b", "c"].length]? ∧
    HashLoadBalance 64 ["c", "b", "a"] [97, 98, 99]
      = ["c", "b", "a"][fnvSum32 [97, 98, 99] % ["a", "b", "c"].length]? ∧
    (∃ a b, a ∈ ["a", "b", "c"] ∧ a ∈ ["c", "b", "a"] ∧ b ∈ ["a", "b", "c"] ∧
      b ∈ ["c", "b", "a"] ∧
      HashLoadBalance 64 ["a", "b", "c"] [97, 98, 99] = some a ∧
      HashLoadBalance 64 ["c", "b", "a"] [97, 98, 99] = some b) ∧
    (HashLoadBalance 64 ["a", "b", "c"] [97, 98, 99]
        = HashLoadBalance 64 ["c", "b", "a"] [97, 98, 99] ↔
      ["a", "b", "c"][fnvSum32 [97, 98, 99] % ["a", "b", "c"].length]?
        = ["c", "b", "a"][fnvSum32 [97, 98, 99] % ["a", "b", "c"].length]?) :=
  hashLoadBalance_same_index 64 (by decide) [97, 98, 99] ["a", "b", "c"] ["c", "b", "a"]
    (by decide) (by decide)

/-! ## sort.Search -/

theorem sortSearchLoop_spec (f : Nat → Bool) (n r : Nat)
    (hf : ∀ x, x < n → (f x = true ↔ r ≤ x)) (fuel i j : Nat)
    (hfuel : j - i ≤ fuel) (hi : i ≤ r) (hj : r ≤ j) (hjn : j ≤ n) :
    sortSearchLoop f fuel i j = some r := by
  induction fuel generalizing i j with
  | zero =>
    have : ¬ i < j := by omega
    simp only [sortSearchLoop, this, if_false]
    congr 1; omega
  | succ fuel ih =>
    unfold sortSearchLoop
    by_cases hij : i < j
    · simp only [hij, if_true]
      have hh : (i + j) / 2 < n := by omega
      by_cases hfh : f ((i + j) / 2) = true
      · have hr : r ≤ (i + j) / 2 := (hf _ hh).mp hfh
        simp only [hfh, Bool.not_true, Bool.false_eq_true, if_false]
        exact ih i ((i + j) / 2) (by omega) hi hr (by omega)
      · have hr : ¬ r ≤ (i + j) / 2 := fun h => hfh ((hf _ hh).mpr h)
        simp only [Bool.not_eq_true] at hfh
        simp only [hfh, Bool.not_false, if_true]
        exact ih ((i + j) / 2 + 1) j (by omega) (by omega) hj hjn
    · simp only [hij, if_false]
      congr 1; omega

theorem sortSearch_spec (f : Nat → Bool) (n r : Nat) (hr : r ≤ n)
    (hf : ∀ x, x < n → (f x = true ↔ r ≤ x)) : sortSearch n f = some r :=
  sortSearchLoop_spec f n r hf n 0 n (by omega) (Nat.zero_le r) hr (le_refl n)

/-! ## Prefix sums -/

theorem totalWeight_take_succ (servers : List Server) (i : Nat) (hi : i < servers.length) :
    totalWeight (servers.take (i + 1)) = totalWeight (servers.take i) + servers[i].weight := by
  induction servers generalizing i with
  | nil => simp at hi
  | cons sv rest ih =>
    cases i with
    | zero =>
      simp only [List.take_succ_cons, List.take_zero, List.getElem_cons_zero, totalWeight_cons]
      ring
    | succ i =>
      have hi' : i < rest.length := by simpa using hi
      simp only [List.take_succ_cons, totalWeight_cons, List.getElem_cons_succ, ih i hi']
      ring

theorem totalWeight_take_mono (servers : List Server) (hw : ∀ sv ∈ servers, 0 ≤ sv.weight)
    (i j : Nat) (hij : i ≤ j) (hj : j ≤ servers.length) :
    totalWeight (servers.take i) ≤ totalWeight (servers.take j) := by
  induction j with
  | zero =>
    have : i = 0 := by omega
    rw [this]
  | succ j ih =>
    by_cases h : i = j + 1
    · rw [h]
    · have h1 := ih (by omega) (by omega)
      have hjlt : j < servers.length := by omega
      rw [totalWeight_take_succ servers j hjlt]
      have := hw _ (List.getElem_mem hjlt)
      omega

theorem preSumFrom_length (acc : Int) (servers : List Server) :
    (WeigthRandom2.preSumFromExact acc servers).length = servers.length + 1 := by
  induction servers generalizing acc with
  | nil => rfl
  | cons sv rest ih => simp [WeigthRandom2.preSumFromExact, ih]

theorem preSumFrom_getD (acc : Int) (servers : List Server) (i : Nat)
    (hi : i ≤ servers.length) :
    (WeigthRandom2.preSumFromExact acc servers).getD i 0 = acc + totalWeight (servers.take i) := by
  induction servers generalizing acc i with
  | nil =>
    have : i = 0 := by simpa using hi
    subst this
    simp [WeigthRandom2.preSumFromExact, totalWeight]
  | cons sv rest ih =>
    cases i with
    | zero => simp [WeigthRandom2.preSumFromExact, totalWeight]
    | succ i =>
      have hi' : i ≤ rest.length := by simpa using hi
      simp only [WeigthRandom2.preSumFromExact, List.getD_cons_succ, List.take_succ_cons,
        totalWeight_cons, ih _ i hi']
      ring

theorem preSum_length (servers : List Server) :
    (WeigthRandom2.preSumExact servers).length = servers.length + 1 :=
  preSumFrom_length 0 servers

theorem preSum_getD (servers : List Server) (i : Nat) (hi : i ≤ servers.length) :
    (WeigthRandom2.preSumExact servers).getD i 0 = totalWeight (servers.take i) := by
  unfold WeigthRandom2.preSumExact
  rw [preSumFrom_getD 0 servers i hi, zero_add]

theorem search_spec (servers : List Server) (hw : ∀ sv ∈ servers, 1 ≤ sv.weight) (x : Nat)
    (hx : (x : Int) < totalWeight servers) :
    ∃ (j : Nat) (_ : j < servers.length), WeigthRandom2.searchExact servers x = some (j + 1) ∧
      totalWeight (servers.take j) ≤ (x : Int) ∧
      (x : Int) < totalWeight (servers.take (j + 1)) := by
  have hw0 : ∀ sv ∈ servers, 0 ≤ sv.weight := fun sv h => by have := hw sv h; omega
  have hex : ∃ i, (x : Int) + 1 ≤ totalWeight (servers.take i) :=
    ⟨servers.length, by rw [List.take_length]; omega⟩
  have hrn : Nat.find hex ≤ servers.length :=
    Nat.find_min' hex (by rw [List.take_length]; omega)
  have hspec := Nat.find_spec hex
  have hr0 : Nat.find hex ≠ 0 := by
    intro h0
    rw [h0] at hspec
    simp only [List.take_zero] at hspec
    have : totalWeight [] = 0 := rfl
    omega
  obtain ⟨j, hj⟩ := Nat.exists_eq_succ_of_ne_zero hr0
  have hjlt : j < servers.length := by omega
  have hmin : ¬ ((x : Int) + 1 ≤ totalWeight (servers.take j)) :=
    Nat.find_min hex (by omega)
  refine ⟨j, hjlt, ?_, by omega, ?_⟩
  · unfold WeigthRandom2.searchExact
    rw [preSum_length]
    have := sortSearch_spec
      (fun i => decide ((WeigthRandom2.preSumExact servers).getD i 0 ≥ (x : Int) + 1))
      (servers.length + 1) (Nat.find hex) (by omega)
      (by
        intro i hi
        rw [decide_eq_true_iff, preSum_getD servers i (by omega)]
        constructor
        · intro h; exact Nat.find_min' hex h
        · intro h
          have := totalWeight_take_mono servers hw0 _ i h (by omega)
          omega)
    rw [this, hj]
  · rw [hj] at hspec
    simp only [Nat.succ_eq_add_one] at hspec
    omega

theorem block_unique (servers : List Server) (hw : ∀ sv ∈ servers, 0 ≤ sv.weight) (x : Int)
    (j j' : Nat) (hj : j < servers.length) (hj' : j' < servers.length)
    (h1 : totalWeight (servers.take j) ≤ x) (h2 : x < totalWeight (servers.take (j + 1)))
    (h1' : totalWeight (servers.take j') ≤ x) (h2' : x < totalWeight (servers.take (j' + 1))) :
    j = j' := by
  by_contra hne
  rcases Nat.lt_or_gt_of_ne hne with h | h
  · have := totalWeight_take_mono servers hw (j + 1) j' (by omega) (by omega)
    omega
  · have := totalWeight_take_mono servers hw (j' + 1) j (by omega) (by omega)
    omega

theorem search_eq_iff (servers : List Server) (hw : ∀ sv ∈ servers, 1 ≤ sv.weight) (x : Nat)
    (hx : (x : Int) < totalWeight servers) (j : Nat) (hj : j < servers.length) :
    WeigthRandom2.searchExact servers x = some (j + 1) ↔
      totalWeight (servers.take j) ≤ (x : Int) ∧
        (x : Int) < totalWeight (servers.take (j + 1)) := by
  have hw0 : ∀ sv ∈ servers, 0 ≤ sv.weight := fun sv h => by have := hw sv h; omega
  obtain ⟨j', hj', hs, h1, h2⟩ := search_spec servers hw x hx
  constructor
  · intro h
    rw [hs] at h
    have : j' = j := by
      have := Option.some.inj h
      omega
    subst this
    exact ⟨h1, h2⟩
  · intro ⟨h1', h2'⟩
    rw [hs, block_unique servers hw0 x j j' hj hj' h1' h2' h1 h2]

theorem draws_count (servers : List Server) (hw : ∀ sv ∈ servers, 1 ≤ sv.weight)
    (j : Nat) (hj : j < servers.length) :
    (((Finset.range (totalWeight servers).toNat).filter
        (fun x => WeigthRandom2.searchExact servers x = some (j + 1))).card : Int)
      = servers[j].weight := by
  have hw0 : ∀ sv ∈ servers, 0 ≤ sv.weight := fun sv h => by have := hw sv h; omega
  have hT0 := totalWeight_nonneg (servers.take j) (fun x hx => hw0 x (List.mem_of_mem_take hx))
  have hT1 := totalWeight_take_succ servers j hj
  have hTn := totalWeight_take_mono servers hw0 (j + 1) servers.length (by omega) (le_refl _)
  rw [List.take_length] at hTn
  have hwj := hw0 _ (List.getElem_mem hj)
  have hset : (Finset.range (totalWeight servers).toNat).filter
        (fun x => WeigthRandom2.searchExact servers x = some (j + 1))
      = Finset.Ico (totalWeight (servers.take j)).toNat
          (totalWeight (servers.take (j + 1))).toNat := by
    ext x
    simp only [Finset.mem_filter, Finset.mem_range, Finset.mem_Ico]
    constructor
    · intro ⟨hx, hs⟩
      have hx' : (x : Int) < totalWeight servers := by omega
      have := (search_eq_iff servers hw x hx' j hj).mp hs
      omega
    · intro ⟨h1, h2⟩
      have hx' : (x : Int) < totalWeight servers := by omega
      exact ⟨by omega, (search_eq_iff servers hw x hx' j hj).mpr ⟨by omega, by omega⟩⟩
  rw [hset, Nat.card_Ico]
  omega

/-! ## WeigthRandom2: the machine prefix sums -/

theorem preSumFrom_eq_exact (intBits : Nat) (hb : 0 < intBits) (servers : List Server)
    (hw : ∀ sv ∈ servers, 0 ≤ sv.weight) (acc : Int) (hacc : 0 ≤ acc)
    (hfit : acc + totalWeight servers < 2 ^ (intBits - 1)) :
    WeigthRandom2.preSumFrom intBits acc servers = WeigthRandom2.preSumFromExact acc servers := by
  induction servers generalizing acc with
  | nil => rfl
  | cons sv rest ih =>
    have h1 := hw sv (List.mem_cons_self _ _)
    have hrest : ∀ x ∈ rest, 0 ≤ x.weight := fun x hx => hw x (List.mem_cons_of_mem _ hx)
    have h2 := totalWeight_nonneg rest hrest
    rw [totalWeight_cons] at hfit
    have hN : (0 : Int) < 2 ^ (intBits - 1) := by positivity
    simp only [WeigthRandom2.preSumFrom, WeigthRandom2.preSumFromExact]
    rw [wrapInt_eq_self intBits _ hb (by omega) (by omega), ih hrest _ (by omega) (by omega)]

theorem weigthRandom2_fit (intBits : Nat) (servers : List Server) (hne : servers ≠ [])
    (hw : ∀ sv ∈ servers, 1 ≤ sv.weight) (hfit : totalWeight servers < 2 ^ (intBits - 1)) :
    0 < intBits ∧ WeigthRandom2.preSum intBits servers = WeigthRandom2.preSumExact servers ∧
      WeigthRandom2.total intBits servers = totalWeight servers := by
  have hW := totalWeight_pos servers hne hw
  have hw0 : ∀ sv ∈ servers, 0 ≤ sv.weight := fun sv h => by have := hw sv h; omega
  have hb : 0 < intBits := by
    by_contra h0
    have : intBits = 0 := by omega
    rw [this] at hfit
    simp at hfit
    omega
  have hpre : WeigthRandom2.preSum intBits servers = WeigthRandom2.preSumExact servers :=
    preSumFrom_eq_exact intBits hb servers hw0 0 (le_refl _) (by omega)
  refine ⟨hb, hpre, ?_⟩
  unfold WeigthRandom2.total
  rw [hpre, preSum_length, Nat.add_sub_cancel, preSum_getD servers _ (le_refl _),
    List.take_length]

theorem search_eq_exact (intBits : Nat) (servers : List Server) (hne : servers ≠ [])
    (hw : ∀ sv ∈ servers, 1 ≤ sv.weight) (hfit : totalWeight servers < 2 ^ (intBits - 1))
    (x : Nat) (hx : (x : Int) < totalWeight servers) :
    WeigthRandom2.search intBits servers x = WeigthRandom2.searchExact servers x := by
  obtain ⟨hb, hpre, _⟩ := weigthRandom2_fit intBits servers hne hw hfit
  have hN : (0 : Int) < 2 ^ (intBits - 1) := by positivity
  unfold WeigthRandom2.search WeigthRandom2.searchExact
  rw [hpre, wrapInt_eq_self intBits _ hb (by omega) (by omega)]

theorem call2_of_search (intBits : Nat) (servers : List Server) (x j : Nat)
    (hj : j < servers.length) (htot : 0 < WeigthRandom2.total intBits servers)
    (hs : WeigthRandom2.search intBits servers x = some (j + 1)) :
    WeigthRandom2.call intBits servers x = some servers[j].ip := by
  unfold WeigthRandom2.call
  have h1 : ¬ WeigthRandom2.total intBits servers ≤ 0 := by omega
  simp only [h1, if_false, hs, Nat.add_sub_cancel, List.getElem?_eq_getElem hj]
  simp

/-- C3, as stated, fails with a 64-bit `int`: on the pool A (weight
`MaxInt64`), B (weight 1) the second prefix sum wraps to `MinInt64`, `total`
is negative, and every call panics in `rand.Intn(total)`; no draw returns a
server. -/
theorem weigthRandom2_overflow_counterexample :
    WeigthRandom2.preSum 64 [⟨"A", 9223372036854775807⟩, ⟨"B", 1⟩]
      = [0, 9223372036854775807, -9223372036854775808] ∧
    WeigthRandom2.total 64 [⟨"A", 9223372036854775807⟩, ⟨"B", 1⟩] = -9223372036854775808 ∧
    ∀ x, WeigthRandom2.call 64 [⟨"A", 9223372036854775807⟩, ⟨"B", 1⟩] x = none :=
  ⟨by decide, by decide, fun _ => rfl⟩

/-- C3, amended. WeigthRandom2 (prefix sums) on an `int` of `intBits` bits:
for a non-empty pool whose weights are all at least 1 and whose total weight
is at most the largest `int`, `preSum` has `n + 1` entries starting at 0 and
`total` is the sum of the weights; for every value `x` that `rand.Intn(total)`
can return (the draw is `r = x + 1`, so `1 ≤ r ≤ total`), the binary search
returns the smallest index `i` with `preSum[i] ≥ r`, it satisfies `1 ≤ i ≤ n`
and `preSum[i-1] < r ≤ preSum[i]`, and the call returns the address of
`servers[i-1]`; and for every pool position `j` exactly `weight_j` of the
`total` possible draws select it. -/
theorem weigthRandom2_prefix_search (intBits : Nat) (servers : List Server)
    (hne : servers ≠ []) (hw : ∀ sv ∈ servers, 1 ≤ sv.weight)
    (hfit : totalWeight servers < 2 ^ (intBits - 1)) :
    (WeigthRandom2.preSum intBits servers).length = servers.length + 1 ∧
    (WeigthRandom2.preSum intBits servers).getD 0 0 = 0 ∧
    WeigthRandom2.total intBits servers = totalWeight servers ∧
    (∀ x : Nat, (x : Int) < WeigthRandom2.total intBits servers →
      ∃ i : Nat, WeigthRandom2.search intBits servers x = some i ∧ 1 ≤ i ∧
        i ≤ servers.length ∧
        (WeigthRandom2.preSum intBits servers).getD (i - 1) 0 < (x : Int) + 1 ∧
        (x : Int) + 1 ≤ (WeigthRandom2.preSum intBits servers).getD i 0 ∧
        (∀ i', i' < i → (WeigthRandom2.preSum intBits servers).getD i' 0 < (x : Int) + 1) ∧
        ∃ sv, servers[i - 1]? = some sv ∧ WeigthRandom2.call intBits servers x = some sv.ip) ∧
    (∀ (j : Nat) (hj : j < servers.length),
      (((Finset.range (WeigthRandom2.total intBits servers).toNat).filter
          (fun x => WeigthRandom2.search intBits servers x = some (j + 1))).card : Int)
        = servers[j].weight) := by
  have hw0 : ∀ sv ∈ servers, 0 ≤ sv.weight := fun sv h => by have := hw sv h; omega
  obtain ⟨_, hpre, htot⟩ := weigthRandom2_fit intBits servers hne hw hfit
  rw [hpre]
  refine ⟨preSum_length servers, ?_, htot, ?_, ?_⟩
  · rw [preSum_getD servers 0 (Nat.zero_le _)]; rfl
  · intro x hx
    rw [htot] at hx
    obtain ⟨j, hj, hs, h1, h2⟩ := search_spec servers hw x hx
    rw [← search_eq_exact intBits servers hne hw hfit x hx] at hs
    refine ⟨j + 1, hs, by omega, by omega, ?_, ?_, ?_, servers[j], ?_, ?_⟩
    · rw [Nat.add_sub_cancel, preSum_getD servers j (by omega)]; omega
    · rw [preSum_getD servers (j + 1) (by omega)]; omega
    · intro i' hi'
      rw [preSum_getD servers i' (by omega)]
      have := totalWeight_take_mono servers hw0 i' j (by omega) (by omega)
      omega
    · rw [Nat.add_sub_cancel, List.getElem?_eq_getElem hj]
    · exact call2_of_search intBits servers x j hj (by omega) hs
  · intro j hj
    rw [htot, ← draws_count servers hw j hj]
    congr 2
    apply Finset.filter_congr
    intro x hx
    have hx' : (x : Int) < totalWeight servers := by
      have := Finset.mem_range.mp hx
      have hW := totalWeight_pos servers hne hw
      omega
    rw [search_eq_exact intBits servers hne hw hfit x hx']

theorem weigthRandom2_prefix_search_witness :
    (WeigthRandom2.total 64 [⟨"192.168.0.1", 3⟩, ⟨"192.168.0.2", 2⟩]).toNat = 5 ∧
    ((Finset.range 5).filter (fun x =>
      WeigthRandom2.search 64 [⟨"192.168.0.1", 3⟩, ⟨"192.168.0.2", 2⟩] x = some 1)).card = 3 ∧
    ((Finset.range 5).filter (fun x =>
      WeigthRandom2.search 64 [⟨"192.168.0.1", 3⟩, ⟨"192.168.0.2", 2⟩] x = some 2)).card = 2 := by
  obtain ⟨_, _, _, _, h⟩ :=
    weigthRandom2_prefix_search 64 [⟨"192.168.0.1", 3⟩, ⟨"192.168.0.2", 2⟩]
      (by decide) (by decide) (by decide)
  have h5 : (WeigthRandom2.total 64 [⟨"192.168.0.1", 3⟩, ⟨"192.168.0.2", 2⟩]).toNat = 5 := by
    decide
  rw [h5] at h
  refine ⟨h5, ?_, ?_⟩
  · have := h 0 (by decide)
    simp only [List.getElem_cons_zero] at this
    exact_mod_cast this
  · have := h 1 (by decide)
    simp only [List.getElem_cons_succ, List.getElem_cons_zero] at this
    exact_mod_cast this

/-- C6, as stated, fails with a 64-bit `int`: on the pool A (weight
`MaxInt64`), B (weight 1), for the draw `r = 1` (`rand.Intn` result 0), entry 0
of the expanded sequence is the address A, but the prefix-sum variant returns
no address: its `total` wrapped to `MinInt64` and `rand.Intn(total)`
panics. -/
theorem weigthRandom2_oracle_counterexample :
    WeigthRandom2.total 64 [⟨"A", 9223372036854775807⟩, ⟨"B", 1⟩] = -9223372036854775808 ∧
    WeigthRandom2.call 64 [⟨"A", 9223372036854775807⟩, ⟨"B", 1⟩] 0 = none ∧
    (expand [⟨"A", 9223372036854775807⟩, ⟨"B", 1⟩])[0]? = some "A" ∧
    WeigthRandom.call [⟨"A", 9223372036854775807⟩, ⟨"B", 1⟩] 0 = some "A" := by
  have hw0 : ∀ sv ∈ ([⟨"A", 9223372036854775807⟩, ⟨"B", 1⟩] : List Server), 0 ≤ sv.weight := by
    decide
  have hblock : (expand [⟨"A", 9223372036854775807⟩, ⟨"B", 1⟩])[0]? = some "A" :=
    expand_block [⟨"A", 9223372036854775807⟩, ⟨"B", 1⟩] hw0 0 (by decide) 0 (by decide)
  have hlen := expand_length [⟨"A", 9223372036854775807⟩, ⟨"B", 1⟩] hw0
  have htw : totalWeight [⟨"A", 9223372036854775807⟩, ⟨"B", 1⟩] = 9223372036854775808 := by
    decide
  rw [htw] at hlen
  refine ⟨by decide, rfl, hblock, ?_⟩
  unfold WeigthRandom.call
  have hne : ¬ (expand [⟨"A", 9223372036854775807⟩, ⟨"B", 1⟩]).length = 0 := by omega
  simp only [hne, if_false]
  exact hblock

/-- C6, amended. WeigthRandom2 agrees with the expansion oracle WeigthRandom
on an `int` of `intBits` bits: for a non-empty pool whose weights are all at
least 1 and whose total weight is at most the largest `int`, the two closures
draw from the same range (`len(s) = total`), and for every value `x` that
`rand.Intn` can return (draw `r = x + 1`) both return the same address, the
entry `x = r - 1` of the expanded slice. -/
theorem weigthRandom2_agrees_with_weigthRandom (intBits : Nat) (servers : List Server)
    (hne : servers ≠ []) (hw : ∀ sv ∈ servers, 1 ≤ sv.weight)
    (hfit : totalWeight servers < 2 ^ (intBits - 1)) (x : Nat)
    (hx : (x : Int) < WeigthRandom2.total intBits servers) :
    ((expand servers).length : Int) = WeigthRandom2.total intBits servers ∧
    WeigthRandom2.call intBits servers x = WeigthRandom.call servers x ∧
    WeigthRandom.call servers x = (expand servers)[x]? ∧
    ∃ a, WeigthRandom2.call intBits servers x = some a := by
  have hw0 : ∀ sv ∈ servers, 0 ≤ sv.weight := fun sv h => by have := hw sv h; omega
  obtain ⟨_, _, htot⟩ := weigthRandom2_fit intBits servers hne hw hfit
  have hlen := expand_length servers hw0
  rw [htot] at hx
  obtain ⟨j, hj, hs, h1, h2⟩ := search_spec servers hw x hx
  rw [← search_eq_exact intBits servers hne hw hfit x hx] at hs
  have hT0 := totalWeight_nonneg (servers.take j) (fun y hy => hw0 y (List.mem_of_mem_take hy))
  have hT1 := totalWeight_take_succ servers j hj
  have hcall := call2_of_search intBits servers x j hj (by omega) hs
  have hblock := expand_block servers hw0 j hj (x - (totalWeight (servers.take j)).toNat)
    (by omega)
  have hxeq : (totalWeight (servers.take j)).toNat + (x - (totalWeight (servers.take j)).toNat)
      = x := by omega
  rw [hxeq] at hblock
  have horacle : WeigthRandom.call servers x = (expand servers)[x]? := by
    unfold WeigthRandom.call
    have : ¬ (expand servers).length = 0 := by omega
    simp only [this, if_false]
  refine ⟨by rw [htot]; exact hlen, ?_, horacle, _, hcall⟩
  rw [hcall, horacle, hblock]

theorem weigthRandom2_agrees_with_weigthRandom_witness :
    ((expand [⟨"192.168.0.1", 3⟩, ⟨"192.168.0.2", 2⟩]).length : Int)
      = WeigthRandom2.total 64 [⟨"192.168.0.1", 3⟩, ⟨"192.168.0.2", 2⟩] ∧
    WeigthRandom2.call 64 [⟨"192.168.0.1", 3⟩, ⟨"192.168.0.2", 2⟩] 3
      = WeigthRandom.call [⟨"192.168.0.1", 3⟩, ⟨"192.168.0.2", 2⟩] 3 ∧
    WeigthRandom.call [⟨"192.168.0.1", 3⟩, ⟨"192.168.0.2", 2⟩] 3
      = (expand [⟨"192.168.0.1", 3⟩, ⟨"192.168.0.2", 2⟩])[3]? ∧
    ∃ a, WeigthRandom2.call 64 [⟨"192.168.0.1", 3⟩, ⟨"192.168.0.2", 2⟩] 3 = some a :=
  weigthRandom2_agrees_with_weigthRandom 64 [⟨"192.168.0.1", 3⟩, ⟨"192.168.0.2", 2⟩]
    (by decide) (by decide) (by decide) 3 (by decide)

/-! ## Unsampled servers and empty pools -/

/-- C11 evaluated on the code: with two listed servers whose sample counts are
all 0, and with two listed servers that have no stats entry at all,
`LeastResponseTime` does not return `servers[0]`: the first division
`total / count` divides by zero and the call panics. -/
theorem leastResponseTime_unsampled_panics :
    LoadBalancer.LeastResponseTime
        ⟨["192.168.0.1", "192.168.0.2"],
          [("192.168.0.1", ⟨0, 0⟩), ("192.168.0.2", ⟨0, 0⟩)]⟩ = none ∧
    LoadBalancer.LeastResponseTime ⟨["192.168.0.1", "192.168.0.2"], []⟩ = none ∧
    LoadBalancer.average
        ⟨["192.168.0.1", "192.168.0.2"],
          [("192.168.0.1", ⟨0, 0⟩), ("192.168.0.2", ⟨0, 0⟩)]⟩ "192.168.0.1" = none := by
  decide

/-- C12 evaluated on the code: with one sampled server (count 10, total 1000)
and one unsampled server (count 0), in either order, `LeastResponseTime`
returns no server: the division for the unsampled server divides by zero and
the call panics. -/
theorem leastResponseTime_mixed_panics :
    LoadBalancer.LeastResponseTime
        ⟨["192.168.0.1", "192.168.0.2"],
          [("192.168.0.1", ⟨10, 1000⟩), ("192.168.0.2", ⟨0, 0⟩)]⟩ = none ∧
    LoadBalancer.LeastResponseTime
        ⟨["192.168.0.2", "192.168.0.1"],
          [("192.168.0.1", ⟨10, 1000⟩), ("192.168.0.2", ⟨0, 0⟩)]⟩ = none ∧
    LoadBalancer.LeastResponseTime
        ⟨["192.168.0.1", "192.168.0.2"], [("192.168.0.1", ⟨10, 1000⟩)]⟩ = none := by
  decide

/-- C13 evaluated on the code: on a pool without servers the first call of
the closures of `RoundRobin`, `WeigthRoundRobin`, `SmoothWeightRoundRobin`,
`WeigthRandom`, `WeigthRandom2` and `HashLoadBalance`, and the function
`Random`, panic; only `LeastResponseTime`, which tests
`len(l.servers) == 0` first, returns a value (the empty string). -/
theorem empty_pool_outcomes :
    RoundRobin.call [] RoundRobin.init = none ∧
    WeigthRoundRobin.call [] WeigthRoundRobin.init = none ∧
    (∀ intBits, SmoothWeightRoundRobin.call intBits [] (SmoothWeightRoundRobin.init []) = none) ∧
    (∀ x, Random [] x = none) ∧
    (∀ x, WeigthRandom.call [] x = none) ∧
    (∀ intBits x, WeigthRandom2.call intBits [] x = none) ∧
    (∀ intBits key, HashLoadBalance intBits [] key = none) ∧
    (∀ rt, LoadBalancer.LeastResponseTime ⟨[], rt⟩ = some "") :=
  ⟨rfl, rfl, fun _ => rfl, fun _ => rfl, fun _ => rfl, fun _ _ => rfl, fun _ _ => rfl,
    fun _ => rfl⟩

/-! ## The 3:1 pattern -/

/-- C15, as stated, fails: for the pool A (weight 3), B (weight 1) the first
eight selections are not A,B,A,A,A,B,A,A; the second call (number 1) returns
A, not B (the same with a 64-bit and with a 32-bit `int`). -/
theorem smoothWeightRoundRobin_pattern_counterexample :
    (runCalls (SmoothWeightRoundRobin.call 64 [⟨"A", 3⟩, ⟨"B", 1⟩]) 8
        (SmoothWeightRoundRobin.init [⟨"A", 3⟩, ⟨"B", 1⟩])).map Prod.fst
      ≠ some ["A", "B", "A", "A", "A", "B", "A", "A"] ∧
    nthCall (SmoothWeightRoundRobin.call 64 [⟨"A", 3⟩, ⟨"B", 1⟩])
        (SmoothWeightRoundRobin.init [⟨"A", 3⟩, ⟨"B", 1⟩]) 1 = some "A" ∧
    (runCalls (SmoothWeightRoundRobin.call 32 [⟨"A", 3⟩, ⟨"B", 1⟩]) 8
        (SmoothWeightRoundRobin.init [⟨"A", 3⟩, ⟨"B", 1⟩])).map Prod.fst
      ≠ some ["A", "B", "A", "A", "A", "B", "A", "A"] ∧
    nthCall (SmoothWeightRoundRobin.call 32 [⟨"A", 3⟩, ⟨"B", 1⟩])
        (SmoothWeightRoundRobin.init [⟨"A", 3⟩, ⟨"B", 1⟩]) 1 = some "A" := by
  decide

/-- C15, amended. For the pool A (weight 3), B (weight 1) the first eight
selections of a fresh selector are A,A,B,A,A,A,B,A, and they leave `current`
all zero (with a 64-bit and with a 32-bit `int`). -/
theorem smoothWeightRoundRobin_pattern :
    runCalls (SmoothWeightRoundRobin.call 64 [⟨"A", 3⟩, ⟨"B", 1⟩]) 8
        (SmoothWeightRoundRobin.init [⟨"A", 3⟩, ⟨"B", 1⟩])
      = some (["A", "A", "B", "A", "A", "A", "B", "A"], [0, 0]) ∧
    runCalls (SmoothWeightRoundRobin.call 32 [⟨"A", 3⟩, ⟨"B", 1⟩]) 8
        (SmoothWeightRoundRobin.init [⟨"A", 3⟩, ⟨"B", 1⟩])
      = some (["A", "A", "B", "A", "A", "A", "B", "A"], [0, 0]) := by
  decide

/-! ## The hash function and the index -/

theorem fnvSum32_append (key : Bytes) (b : Fin 256) :
    fnvSum32 (key ++ [b]) = ((fnvSum32 key * prime32) % 2 ^ 32) ^^^ b.val := by
  unfold fnvSum32 fnvWrite
  rw [List.foldl_append]
  rfl

/-- C17, as stated, fails: for the key "abc" the FNV-1a hash is 440920331
and the hash the code computes is 1134309195; on the pool `["a", "b", "c"]`
the code returns "a" (index 0) where FNV-1a would select "c" (index 2). -/
theorem hashLoadBalance_fnv1a_counterexample :
    fnv1a32 [97, 98, 99] = 440920331 ∧
    fnvSum32 [97, 98, 99] = 1134309195 ∧
    HashLoadBalance 64 ["a", "b", "c"] [97, 98, 99] = some "a" ∧
    ["a", "b", "c"][fnv1a32 [97, 98, 99] % 3]? = some "c" ∧
    HashLoadBalance 64 ["a", "b", "c"] [97, 98, 99]
      ≠ ["a", "b", "c"][fnv1a32 [97, 98, 99] % ["a", "b", "c"].length]? := by
  decide

/-- C17, amended. `HashLoadBalance` uses the 32-bit FNV-1 hash: the hash of
the empty key is the offset basis 2166136261, each further byte multiplies the
hash by the prime 16777619 modulo `2^32` and then xors the byte in; for a
non-empty pool of `n` servers and an `int` of more than 32 bits the call
returns `servers[h mod n]` for that hash `h`. -/
theorem hashLoadBalance_uses_fnv1 (intBits : Nat) (hbits : 32 < intBits)
    (servers : List String) (hne : servers ≠ []) (key : Bytes) :
    fnvSum32 [] = 2166136261 ∧
    (∀ (k : Bytes) (b : Fin 256),
      fnvSum32 (k ++ [b]) = ((fnvSum32 k * 16777619) % 2 ^ 32) ^^^ b.val) ∧
    fnvSum32 key % servers.length < servers.length ∧
    HashLoadBalance intBits servers key = servers[fnvSum32 key % servers.length]? :=
  ⟨rfl, fun k b => fnvSum32_append k b, Nat.mod_lt _ (List.length_pos.mpr hne),
    hashLoadBalance_eq intBits hbits servers hne key⟩

theorem hashLoadBalance_uses_fnv1_witness :
    fnvSum32 [97, 98, 99] = 1134309195 ∧
    HashLoadBalance 64 ["a", "b", "c"] [97, 98, 99]
      = ["a", "b", "c"][fnvSum32 [97, 98, 99] % ["a", "b", "c"].length]? :=
  ⟨by decide,
    (hashLoadBalance_uses_fnv1 64 (by decide) ["a", "b", "c"] (by decide) [97, 98, 99]).2.2.2⟩

/-- C18 evaluated on the code where `int` has 32 bits: the hash of the empty
key is 2166136261, `int(h)` is then -2128831035, the index `int(h) % 2` is -1,
not in `[0, 2)`, and the call on the pool `["a", "b"]` panics instead of
returning a member of the pool. -/
theorem hashLoadBalance_index_counterexample :
    fnvSum32 [] = 2166136261 ∧
    toInt 32 (fnvSum32 []) = -2128831035 ∧
    Int.tmod (toInt 32 (fnvSum32 [])) ((["a", "b"] : List String).length : Int) = -1 ∧
    HashLoadBalance 32 ["a", "b"] [] = none := by
  decide

/-- Where `int` has more than 32 bits (64-bit Go), for every non-empty pool of
`n` servers and every key the conversion `int(h)` is `h`, not negative, the
index `int(h) % n` satisfies `0 ≤ index < n`, and the call returns an address
of the pool. -/
theorem hashLoadBalance_index_in_range (intBits : Nat) (hbits : 32 < intBits)
    (servers : List String) (hne : servers ≠ []) (key : Bytes) :
    toInt intBits (fnvSum32 key) = (fnvSum32 key : Int) ∧
    0 ≤ Int.tmod (toInt intBits (fnvSum32 key)) (servers.length : Int) ∧
    Int.tmod (toInt intBits (fnvSum32 key)) (servers.length : Int) < (servers.length : Int) ∧
    ∃ a ∈ servers, HashLoadBalance intBits servers key = some a := by
  have hpos : 0 < servers.length := List.length_pos.mpr hne
  have hi : fnvSum32 key % servers.length < servers.length := Nat.mod_lt _ hpos
  have hconv := toInt_of_lt intBits _ hbits (fnvSum32_lt key)
  rw [hconv, ← Int.ofNat_tmod]
  refine ⟨rfl, by omega, by omega, servers[fnvSum32 key % servers.length],
    List.getElem_mem hi, ?_⟩
  rw [hashLoadBalance_eq intBits hbits servers hne key, List.getElem?_eq_getElem hi]

theorem hashLoadBalance_index_in_range_witness :
    toInt 64 (fnvSum32 []) = (fnvSum32 [] : Int) ∧
    0 ≤ Int.tmod (toInt 64 (fnvSum32 [])) ((["a", "b"] : List String).length : Int) ∧
    Int.tmod (toInt 64 (fnvSum32 [])) ((["a", "b"] : List String).length : Int)
      < ((["a", "b"] : List String).length : Int) ∧
    ∃ a ∈ ["a", "b"], HashLoadBalance 64 ["a", "b"] [] = some a :=
  hashLoadBalance_index_in_range 64 (by decide) ["a", "b"] (by decide) []

/-! ## Truncated and exact averages -/

theorem leastResponseTime_argmin (l : LoadBalancer) (hne : l.servers ≠ [])
    (hstats : ∀ s ∈ l.servers, ∃ r, l.rt.lookup s = some r ∧ 1 ≤ r.count ∧ 0 ≤ r.total) :
    ∃ (j : Nat) (hj : j < l.servers.length),
      l.LeastResponseTime = some l.servers[j] ∧
      ∀ (i : Nat) (hi : i < l.servers.length),
        Int.tdiv (l.stat l.servers[j]).total (l.stat l.servers[j]).count
          ≤ Int.tdiv (l.stat l.servers[i]).total (l.stat l.servers[i]).count := by
  have havg : ∀ s ∈ l.servers,
      l.average s = some (Int.tdiv (l.stat s).total (l.stat s).count) := by
    intro s hs
    obtain ⟨r, hr, hcnt, _⟩ := hstats s hs
    obtain ⟨h1, h2⟩ := average_of_stat l s r hr hcnt
    rw [h2]; exact h1
  obtain ⟨s0, rest, hsv⟩ := List.exists_cons_of_ne_nil hne
  have h0 := havg s0 (by rw [hsv]; exact List.mem_cons_self _ _)
  have hinit : ∀ (i : Nat) (t : String), [s0][i]? = some t →
      ∃ b, l.average t = some b ∧
        Int.tdiv (l.stat s0).total (l.stat s0).count ≤ b ∧
        (i < 0 → Int.tdiv (l.stat s0).total (l.stat s0).count < b) := by
    intro i t hit
    cases i with
    | zero =>
      simp only [List.getElem?_cons_zero, Option.some.injEq] at hit
      subst hit
      exact ⟨_, h0, le_refl _, fun h => absurd h (Nat.lt_irrefl 0)⟩
    | succ i => simp at hit
  obtain ⟨j, s', a', hloop, hget, hs', hall⟩ :=
    leastLoop_spec l rest [s0] 0 s0 _ rfl h0 hinit
      (fun t ht => ⟨_, havg t (by rw [hsv]; exact List.mem_cons_of_mem _ ht)⟩)
  rw [List.singleton_append, ← hsv] at hget
  simp only [List.singleton_append, ← hsv] at hall
  have hj : j < l.servers.length := by
    by_contra hge
    rw [List.getElem?_eq_none (by omega)] at hget
    cases hget
  have hsj : l.servers[j] = s' := by
    rw [List.getElem?_eq_getElem hj] at hget
    exact Option.some.inj hget
  have hret : l.LeastResponseTime = some s' := by
    unfold LoadBalancer.LeastResponseTime
    rw [hsv]
    simp only [h0, hloop]
  refine ⟨j, hj, by rw [hret, hsj], ?_⟩
  intro i hi
  obtain ⟨b, hb, hab, _⟩ := hall i _ (List.getElem?_eq_getElem hi)
  rw [havg _ (List.getElem_mem hi)] at hb
  have hq := havg _ (List.getElem_mem hj)
  rw [hsj, hs'] at hq
  rw [hsj, ← Option.some.inj hq, Option.some.inj hb]
  exact hab

theorem exactAverage_bounds (l : LoadBalancer) (s : String)
    (hc : 1 ≤ (l.stat s).count) (ht : 0 ≤ (l.stat s).total) :
    ((Int.tdiv (l.stat s).total (l.stat s).count : Int) : ℚ) ≤ l.exactAverage s ∧
    l.exactAverage s < ((Int.tdiv (l.stat s).total (l.stat s).count : Int) : ℚ) + 1 := by
  unfold LoadBalancer.exactAverage
  generalize (l.stat s).total = t at *
  generalize (l.stat s).count = n at *
  have hn0 : (0 : Int) ≤ n := by omega
  rw [Int.tdiv_eq_ediv ht hn0]
  have hnpos : (0 : ℚ) < (n : ℚ) := by exact_mod_cast (by omega : (0 : Int) < n)
  have hdecomp := Int.emod_add_ediv t n
  have hr0 := Int.emod_nonneg t (by omega : n ≠ 0)
  have hr1 := Int.emod_lt_of_pos t (by omega : (0 : Int) < n)
  have hlow : n * (t / n) ≤ t := by omega
  have hhigh : t < n * (t / n) + n := by omega
  have hlowq : (n : ℚ) * ((t / n : Int) : ℚ) ≤ (t : ℚ) := by exact_mod_cast hlow
  have hhighq : (t : ℚ) < (n : ℚ) * ((t / n : Int) : ℚ) + (n : ℚ) := by exact_mod_cast hhigh
  constructor
  · rw [le_div_iff₀ hnpos]; linarith
  · rw [div_lt_iff₀ hnpos]; linarith

/-- C16, as stated, fails: with A = {count 2, total 3} and B = {count 1,
total 1} both truncated quotients are 1, `LeastResponseTime` returns A, and
the exact average of A is 3/2, more than the exact average 1 of B. -/
theorem leastResponseTime_exact_counterexample :
    LoadBalancer.LeastResponseTime ⟨["A", "B"], [("A", ⟨2, 3⟩), ("B", ⟨1, 1⟩)]⟩ = some "A" ∧
    LoadBalancer.exactAverage ⟨["A", "B"], [("A", ⟨2, 3⟩), ("B", ⟨1, 1⟩)]⟩ "A" = 3 / 2 ∧
    LoadBalancer.exactAverage ⟨["A", "B"], [("A", ⟨2, 3⟩), ("B", ⟨1, 1⟩)]⟩ "B" = 1 ∧
    ¬ (LoadBalancer.exactAverage ⟨["A", "B"], [("A", ⟨2, 3⟩), ("B", ⟨1, 1⟩)]⟩ "A"
      ≤ LoadBalancer.exactAverage ⟨["A", "B"], [("A", ⟨2, 3⟩), ("B", ⟨1, 1⟩)]⟩ "B") := by
  have hA : LoadBalancer.exactAverage ⟨["A", "B"], [("A", ⟨2, 3⟩), ("B", ⟨1, 1⟩)]⟩ "A"
      = 3 / 2 := by
    have hs : LoadBalancer.stat ⟨["A", "B"], [("A", ⟨2, 3⟩), ("B", ⟨1, 1⟩)]⟩ "A" = ⟨2, 3⟩ := by
      decide
    unfold LoadBalancer.exactAverage
    rw [hs]; norm_num
  have hB : LoadBalancer.exactAverage ⟨["A", "B"], [("A", ⟨2, 3⟩), ("B", ⟨1, 1⟩)]⟩ "B"
      = 1 := by
    have hs : LoadBalancer.stat ⟨["A", "B"], [("A", ⟨2, 3⟩), ("B", ⟨1, 1⟩)]⟩ "B" = ⟨1, 1⟩ := by
      decide
    unfold LoadBalancer.exactAverage
    rw [hs]; norm_num
  refine ⟨by decide, hA, hB, ?_⟩
  rw [hA, hB]; norm_num

/-- C16, amended. On a non-empty server list in which every listed server has
count at least 1 and total at least 0, the returned server minimises the
truncated integer quotient `total / count`, so its exact average is less than
the exact average of every listed server plus 1. -/
theorem leastResponseTime_truncated_minimum (l : LoadBalancer) (hne : l.servers ≠ [])
    (hstats : ∀ s ∈ l.servers, ∃ r, l.rt.lookup s = some r ∧ 1 ≤ r.count ∧ 0 ≤ r.total) :
    ∃ (j : Nat) (hj : j < l.servers.length),
      l.LeastResponseTime = some l.servers[j] ∧
      ∀ (i : Nat) (hi : i < l.servers.length),
        Int.tdiv (l.stat l.servers[j]).total (l.stat l.servers[j]).count
          ≤ Int.tdiv (l.stat l.servers[i]).total (l.stat l.servers[i]).count ∧
        l.exactAverage l.servers[j] < l.exactAverage l.servers[i] + 1 := by
  have hst : ∀ s ∈ l.servers, 1 ≤ (l.stat s).count ∧ 0 ≤ (l.stat s).total := by
    intro s hs
    obtain ⟨r, hr, hcnt, htot⟩ := hstats s hs
    rw [(average_of_stat l s r hr hcnt).2]
    exact ⟨hcnt, htot⟩
  obtain ⟨j, hj, hret, hmin⟩ := leastResponseTime_argmin l hne hstats
  refine ⟨j, hj, hret, fun i hi => ⟨hmin i hi, ?_⟩⟩
  obtain ⟨hcj, htj⟩ := hst _ (List.getElem_mem hj)
  obtain ⟨hci, hti⟩ := hst _ (List.getElem_mem hi)
  have h1 := (exactAverage_bounds l _ hcj htj).2
  have h2 := (exactAverage_bounds l _ hci hti).1
  have h3 : ((Int.tdiv (l.stat l.servers[j]).total (l.stat l.servers[j]).count : Int) : ℚ)
      ≤ ((Int.tdiv (l.stat l.servers[i]).total (l.stat l.servers[i]).count : Int) : ℚ) := by
    exact_mod_cast hmin i hi
  linarith

theorem leastResponseTime_truncated_minimum_witness :
    ∃ (j : Nat) (hj : j < 2),
      LoadBalancer.LeastResponseTime ⟨["A", "B"], [("A", ⟨2, 3⟩), ("B", ⟨1, 1⟩)]⟩
        = some (["A", "B"][j]) ∧
      ∀ (i : Nat) (hi : i < 2),
        Int.tdiv
            (LoadBalancer.stat ⟨["A", "B"], [("A", ⟨2, 3⟩), ("B", ⟨1, 1⟩)]⟩ (["A", "B"][j])).total
            (LoadBalancer.stat ⟨["A", "B"], [("A", ⟨2, 3⟩), ("B", ⟨1, 1⟩)]⟩ (["A", "B"][j])).count
          ≤ Int.tdiv
            (LoadBalancer.stat ⟨["A", "B"], [("A", ⟨2, 3⟩), ("B", ⟨1, 1⟩)]⟩ (["A", "B"][i])).total
            (LoadBalancer.stat ⟨["A", "B"], [("A", ⟨2, 3⟩), ("B", ⟨1, 1⟩)]⟩ (["A", "B"][i])).count ∧
        LoadBalancer.exactAverage ⟨["A", "B"], [("A", ⟨2, 3⟩), ("B", ⟨1, 1⟩)]⟩ (["A", "B"][j])
          < LoadBalancer.exactAverage ⟨["A", "B"], [("A", ⟨2, 3⟩), ("B", ⟨1, 1⟩)]⟩ (["A", "B"][i])
            + 1 :=
  leastResponseTime_truncated_minimum ⟨["A", "B"], [("A", ⟨2, 3⟩), ("B", ⟨1, 1⟩)]⟩
    (by decide) (by decide)

/-! ## Periodicity and the zero-sum invariant -/

theorem nthCall_add {σ ρ : Type} (step : σ → Option (ρ × σ)) (a k : Nat) (s s' : σ)
    (rs : List ρ) (h : runCalls step a s = some (rs, s')) :
    nthCall step s (a + k) = nthCall step s' k := by
  unfold nthCall
  rw [runCalls_add, h]
  simp only
  cases runCalls step k s' with
  | none => rfl
  | some p => rfl

theorem nthCall_of_run {σ ρ : Type} (step : σ → Option (ρ × σ)) (k : Nat) (s s' : σ)
    (rs : List ρ) (h : runCalls step (k + 1) s = some (rs, s')) :
    ∃ a, nthCall step s k = some a := by
  rw [runCalls_add] at h
  unfold nthCall
  cases h1 : runCalls step k s with
  | none => rw [h1] at h; cases h
  | some p =>
    obtain ⟨rs1, s1⟩ := p
    rw [h1] at h
    simp only [runCalls] at h
    simp only
    cases h2 : step s1 with
    | none => rw [h2] at h; cases h
    | some q => exact ⟨q.1, rfl⟩

theorem list_sum_eq_range_sum (l : List Int) :
    l.sum = ∑ i in Finset.range l.length, l.getD i 0 := by
  induction l with
  | nil => simp
  | cons a l ih =>
    rw [List.sum_cons, List.length_cons, Finset.sum_range_succ', ih]
    simp only [List.getD_cons_succ, List.getD_cons_zero]
    ring

theorem foldl_wrap_cast (intBits : Nat) (servers : List Server) (acc : Int) :
    ((servers.foldl (fun total sv => wrapInt intBits (total + sv.weight)) acc : Int) :
        ZMod (2 ^ intBits))
      = ((acc + totalWeight servers : Int) : ZMod (2 ^ intBits)) := by
  induction servers generalizing acc with
  | nil => simp [totalWeight]
  | cons sv rest ih =>
    rw [List.foldl_cons, ih, totalWeight_cons]
    push_cast
    rw [wrapInt_cast]
    push_cast
    ring

namespace SmoothWeightRoundRobin

theorem total_cast (intBits : Nat) (servers : List Server) :
    ((total intBits servers : Int) : ZMod (2 ^ intBits))
      = ((totalWeight servers : Int) : ZMod (2 ^ intBits)) := by
  unfold total
  rw [foldl_wrap_cast, zero_add]

/-- The machine loop after `m` iterations, for any weights: the first `m`
entries hold the wrapped sums, the others are untouched, and `index` is 0 or
one of the positions visited. -/
theorem scan_wrap_inv (intBits : Nat) (servers : List Server) (cur : List Int) (m : Nat)
    (hm : m ≤ cur.length) :
    ((List.range m).foldl (scanStep intBits servers) (cur, 0, 0)).1.length = cur.length ∧
    (∀ i, i < m →
      ((List.range m).foldl (scanStep intBits servers) (cur, 0, 0)).1.getD i 0
        = wrapInt intBits (cur.getD i 0 + wt servers i)) ∧
    (∀ i, m ≤ i →
      ((List.range m).foldl (scanStep intBits servers) (cur, 0, 0)).1.getD i 0
        = cur.getD i 0) ∧
    (((List.range m).foldl (scanStep intBits servers) (cur, 0, 0)).2.2 = 0 ∨
      ((List.range m).foldl (scanStep intBits servers) (cur, 0, 0)).2.2 < m) := by
  induction m with
  | zero => exact ⟨rfl, fun i hi => absurd hi (Nat.not_lt_zero i), fun i _ => rfl, Or.inl rfl⟩
  | succ m ih =>
    obtain ⟨hl, hd, ht, hidx⟩ := ih (by omega)
    rw [List.range_succ, List.foldl_append]
    generalize (List.range m).foldl (scanStep intBits servers) (cur, 0, 0) = st at hl hd ht hidx
    obtain ⟨cs, mx, idx⟩ := st
    simp only at hl hd ht hidx
    have hlen : m < cs.length := by omega
    have hcm : cs.getD m 0 = cur.getD m 0 := ht m (le_refl _)
    have hset : ∀ j, (cs.set m (wrapInt intBits (cs.getD m 0 + wt servers m))).getD j 0 =
        if j = m then wrapInt intBits (cs.getD m 0 + wt servers m) else cs.getD j 0 :=
      fun j => getD_set_int cs m j _ hlen
    simp only [List.foldl_cons, List.foldl_nil]
    unfold scanStep
    simp only [show (servers.getD m ⟨"", 0⟩).weight = wt servers m from rfl]
    have hres : ∀ (mx' : Int) (idx' : Nat), (idx' = 0 ∨ idx' < m + 1) →
        ((cs.set m (wrapInt intBits (cs.getD m 0 + wt servers m)), mx', idx') :
            List Int × Int × Nat).1.length = cur.length ∧
        (∀ i, i < m + 1 →
          ((cs.set m (wrapInt intBits (cs.getD m 0 + wt servers m)), mx', idx') :
              List Int × Int × Nat).1.getD i 0
            = wrapInt intBits (cur.getD i 0 + wt servers i)) ∧
        (∀ i, m + 1 ≤ i →
          ((cs.set m (wrapInt intBits (cs.getD m 0 + wt servers m)), mx', idx') :
              List Int × Int × Nat).1.getD i 0 = cur.getD i 0) ∧
        (((cs.set m (wrapInt intBits (cs.getD m 0 + wt servers m)), mx', idx') :
              List Int × Int × Nat).2.2 = 0 ∨
          ((cs.set m (wrapInt intBits (cs.getD m 0 + wt servers m)), mx', idx') :
              List Int × Int × Nat).2.2 < m + 1) := by
      intro mx' idx' hidx'
      refine ⟨by simpa using hl, ?_, ?_, hidx'⟩
      · intro i hi
        simp only
        rw [hset]
        by_cases him : i = m
        · subst him; simp only [if_true]; rw [hcm]
        · simp only [him, if_false]; exact hd i (by omega)
      · intro i hi
        simp only
        rw [hset]
        have him : i ≠ m := by omega
        simp only [him, if_false]; exact ht i (by omega)
    split
    · exact hres _ m (Or.inr (by omega))
    · exact hres _ idx (by rcases hidx with h | h; exact Or.inl h; exact Or.inr (by omega))

/-- For any weights: on a non-empty pool `select` returns, and every entry
holds the wrapped sum, the selected one less `total`. -/
theorem select_total (intBits : Nat) (servers : List Server) (cur : List Int)
    (hlen : cur.length = servers.length) (hpos : 0 < servers.length) :
    ∃ idx cur', select intBits servers cur = some (idx, cur') ∧ idx < servers.length ∧
      cur'.length = servers.length ∧
      ∀ i, i < servers.length →
        cur'.getD i 0
          = if i = idx then
              wrapInt intBits (wrapInt intBits (cur.getD i 0 + wt servers i)
                - total intBits servers)
            else wrapInt intBits (cur.getD i 0 + wt servers i) := by
  obtain ⟨hl, hd, _, hidx⟩ := scan_wrap_inv intBits servers cur servers.length (by omega)
  unfold select
  have hscan : scan intBits servers cur
      = (List.range servers.length).foldl (scanStep intBits servers) (cur, 0, 0) := rfl
  simp only [hscan]
  generalize (List.range servers.length).foldl (scanStep intBits servers) (cur, 0, 0) = st
    at hl hd hidx
  obtain ⟨cs, mx, idx⟩ := st
  simp only at hl hd hidx
  have hidxn : idx < servers.length := by
    rcases hidx with h | h
    · omega
    · exact h
  have hidxc : idx < cs.length := by omega
  have hget : cs[idx]? = some (cs.getD idx 0) := by
    rw [List.getD_eq_getElem?_getD, List.getElem?_eq_getElem hidxc, Option.getD_some]
  simp only [hget]
  refine ⟨idx, _, rfl, hidxn, by simp [hl, hlen], ?_⟩
  intro i hi
  rw [getD_set_int cs idx i _ hidxc]
  by_cases hii : i = idx
  · subst hii
    simp only [if_true]
    rw [hd i hi]
  · simp only [hii, if_false]
    rw [hd i hi]

theorem select_sum_cast (intBits : Nat) (servers : List Server) (cur cur' : List Int)
    (idx : Nat) (hlen : cur.length = servers.length) (hlen' : cur'.length = servers.length)
    (hidx : idx < servers.length)
    (hval : ∀ i, i < servers.length →
      cur'.getD i 0
        = if i = idx then
            wrapInt intBits (wrapInt intBits (cur.getD i 0 + wt servers i)
              - total intBits servers)
          else wrapInt intBits (cur.getD i 0 + wt servers i)) :
    ((cur'.sum : Int) : ZMod (2 ^ intBits)) = ((cur.sum : Int) : ZMod (2 ^ intBits)) := by
  rw [list_sum_eq_range_sum cur', list_sum_eq_range_sum cur, hlen, hlen']
  push_cast
  have h1 : ∀ i ∈ Finset.range servers.length,
      ((cur'.getD i 0 : Int) : ZMod (2 ^ intBits))
        = ((cur.getD i 0 : Int) : ZMod (2 ^ intBits)) + ((wt servers i : Int) : ZMod (2 ^ intBits))
          - (if i = idx then ((totalWeight servers : Int) : ZMod (2 ^ intBits)) else 0) := by
    intro i hi
    rw [hval i (Finset.mem_range.mp hi)]
    by_cases hii : i = idx
    · simp only [hii, if_true]
      rw [wrapInt_cast]
      push_cast
      rw [wrapInt_cast, total_cast]
      push_cast
      ring
    · simp only [hii, if_false]
      rw [wrapInt_cast]
      push_cast
      ring
  rw [Finset.sum_congr rfl h1, Finset.sum_sub_distrib, Finset.sum_add_distrib,
    Finset.sum_ite_eq' (Finset.range servers.length) idx
      (fun _ => ((totalWeight servers : Int) : ZMod (2 ^ intBits)))]
  simp only [Finset.mem_range, hidx, if_true]
  rw [totalWeight_eq_sum]
  push_cast
  ring

theorem run_zero_sum (intBits : Nat) (servers : List Server) (hne : servers ≠ []) (k : Nat) :
    ∃ idxs cur, runCalls (select intBits servers) k (init servers) = some (idxs, cur) ∧
      cur.length = servers.length ∧ (∀ x ∈ idxs, x < servers.length) ∧
      ((cur.sum : Int) : ZMod (2 ^ intBits)) = 0 := by
  have hpos : 0 < servers.length := List.length_pos.mpr hne
  induction k with
  | zero =>
    refine ⟨[], init servers, rfl, by simp [init], fun x hx => absurd hx (List.not_mem_nil x), ?_⟩
    simp [init]
  | succ k ih =>
    obtain ⟨idxs, cur, hrun, hlen, hb, hsum⟩ := ih
    obtain ⟨idx, cur', hsel, hidx, hlen', hval⟩ := select_total intBits servers cur hlen hpos
    refine ⟨idxs ++ [idx], cur', ?_, hlen', ?_, ?_⟩
    · rw [runCalls_add, hrun]
      simp only [runCalls, hsel]
    · intro x hx
      rcases List.mem_append.mp hx with h | h
      · exact hb x h
      · rw [List.mem_singleton.mp h]; exact hidx
    · rw [select_sum_cast intBits servers cur cur' idx hlen hlen' hidx hval, hsum]

end SmoothWeightRoundRobin

/-- C19, as stated, fails with a 64-bit `int`: on the pool A, B with both
weights `MaxInt64` (total weight 18446744073709551614) the first
18446744073709551614 calls leave `current = [2, -2]`, not all zero, and call
number 18446744073709551614 returns B while call number 0 returns A. -/
theorem smoothWeightRoundRobin_period_counterexample :
    nthCall
        (SmoothWeightRoundRobin.call 64
          [⟨"A", 9223372036854775807⟩, ⟨"B", 9223372036854775807⟩])
        (SmoothWeightRoundRobin.init [⟨"A", 9223372036854775807⟩, ⟨"B", 9223372036854775807⟩])
        0 = some "A" ∧
    nthCall
        (SmoothWeightRoundRobin.call 64
          [⟨"A", 9223372036854775807⟩, ⟨"B", 9223372036854775807⟩])
        (SmoothWeightRoundRobin.init [⟨"A", 9223372036854775807⟩, ⟨"B", 9223372036854775807⟩])
        (0 + 18446744073709551614) = some "B" ∧
    ∃ addrs,
      runCalls
          (SmoothWeightRoundRobin.call 64
            [⟨"A", 9223372036854775807⟩, ⟨"B", 9223372036854775807⟩])
          18446744073709551614
          (SmoothWeightRoundRobin.init [⟨"A", 9223372036854775807⟩, ⟨"B", 9223372036854775807⟩])
        = some (addrs, [2, -2]) := by
  have e : (18446744073709551614 : Nat) = 1 + (2 * 9223372036854775806 + 1) := by norm_num
  have hrun := runCalls_lead_cycle2
    (SmoothWeightRoundRobin.call 64 [⟨"A", 9223372036854775807⟩, ⟨"B", 9223372036854775807⟩])
    (SmoothWeightRoundRobin.init [⟨"A", 9223372036854775807⟩, ⟨"B", 9223372036854775807⟩])
    [-9223372036854775807, 9223372036854775807] [2, -2] "A" "A" "B"
    (by decide) (by decide) (by decide) 9223372036854775806
  rw [← e] at hrun
  refine ⟨by decide, ?_, _, hrun⟩
  rw [Nat.zero_add]
  exact nthCall_of_runCalls _ _ _ _ [-9223372036854775807, 9223372036854775807] _ "B" hrun
    (by decide)

/-- C19, amended. SmoothWeightRoundRobin periodicity on an `int` of `intBits`
bits: on a non-empty pool of `n` servers whose weights are all at least 1 and
with `n * total` at most the largest `int`, the first `total` calls from the
fresh state return and leave every `current[i]` at 0 again, every call returns
a server, and call `k + total` returns the same server as call `k`. -/
theorem smoothWeightRoundRobin_periodic (intBits : Nat) (servers : List Server)
    (hne : servers ≠ []) (hw : ∀ sv ∈ servers, 1 ≤ sv.weight)
    (hfit : (servers.length : Int) * totalWeight servers < 2 ^ (intBits - 1)) :
    (∃ addrs cur,
      runCalls (SmoothWeightRoundRobin.call intBits servers) (totalWeight servers).toNat
          (SmoothWeightRoundRobin.init servers) = some (addrs, cur) ∧
      cur.length = servers.length ∧ ∀ x ∈ cur, x = 0) ∧
    ∀ k, ∃ a,
      nthCall (SmoothWeightRoundRobin.call intBits servers)
          (SmoothWeightRoundRobin.init servers) k = some a ∧
      nthCall (SmoothWeightRoundRobin.call intBits servers)
          (SmoothWeightRoundRobin.init servers) (k + (totalWeight servers).toNat) = some a := by
  obtain ⟨p, hp, hpb, _⟩ := SmoothWeightRoundRobin.run_period servers hne hw
  rw [← SmoothWeightRoundRobin.run_eq_exact intBits servers hne hw hfit] at hp
  have hcall := SmoothWeightRoundRobin.call_trace intBits servers _ _ _ p hp hpb
  refine ⟨⟨_, _, hcall, by simp [SmoothWeightRoundRobin.init], ?_⟩, ?_⟩
  · intro x hx
    exact List.eq_of_mem_replicate hx
  · intro k
    obtain ⟨idxs, cur, hrun, inv⟩ := SmoothWeightRoundRobin.run_inv servers hne hw (k + 1)
    rw [← SmoothWeightRoundRobin.run_eq_exact intBits servers hne hw hfit] at hrun
    have hrun' := SmoothWeightRoundRobin.call_trace intBits servers _ _ _ idxs hrun inv.inb
    obtain ⟨a, ha⟩ := nthCall_of_run _ k _ _ _ hrun'
    refine ⟨a, ha, ?_⟩
    rw [Nat.add_comm, nthCall_add _ _ k _ _ _ hcall, ha]

theorem smoothWeightRoundRobin_periodic_witness :
    (∃ addrs cur,
      runCalls (SmoothWeightRoundRobin.call 64 [⟨"A", 3⟩, ⟨"B", 1⟩]) 4 [0, 0]
        = some (addrs, cur) ∧
      cur.length = 2 ∧ ∀ x ∈ cur, x = 0) ∧
    ∀ k, ∃ a,
      nthCall (SmoothWeightRoundRobin.call 64 [⟨"A", 3⟩, ⟨"B", 1⟩]) [0, 0] k = some a ∧
      nthCall (SmoothWeightRoundRobin.call 64 [⟨"A", 3⟩, ⟨"B", 1⟩]) [0, 0] (k + 4) = some a :=
  smoothWeightRoundRobin_periodic 64 [⟨"A", 3⟩, ⟨"B", 1⟩] (by decide) (by decide) (by decide)

/-- C20, as stated, fails with a 64-bit `int`: on the pool A, B, C with all
weights `MaxInt64` one call leaves `current = [2, MaxInt64, MaxInt64]`, whose
sum is 18446744073709551616 (`2^64`), not 0. -/
theorem smoothWeightRoundRobin_zero_sum_counterexample :
    runCalls
        (SmoothWeightRoundRobin.select 64
          [⟨"A", 9223372036854775807⟩, ⟨"B", 9223372036854775807⟩,
            ⟨"C", 9223372036854775807⟩]) 1
        (SmoothWeightRoundRobin.init
          [⟨"A", 9223372036854775807⟩, ⟨"B", 9223372036854775807⟩,
            ⟨"C", 9223372036854775807⟩])
      = some ([0], [2, 9223372036854775807, 9223372036854775807]) ∧
    ([2, 9223372036854775807, 9223372036854775807] : List Int).sum = 18446744073709551616 ∧
    ([2, 9223372036854775807, 9223372036854775807] : List Int).sum ≠ 0 := by
  decide

/-- C20, amended. SmoothWeightRoundRobin zero-sum invariant on an `int` of
`intBits` bits: on a non-empty pool with any integer weights, every number `k`
of calls from the fresh state returns (`k = 0`: before the first call), and the
entries of `current` then sum to 0 modulo `2^intBits` (the sum is 0 as a
machine integer); the sum is exactly 0 when the weights are all at least 1 and
`n * total` is at most the largest `int`. -/
theorem smoothWeightRoundRobin_zero_sum (intBits : Nat) (servers : List Server)
    (hne : servers ≠ []) (k : Nat) :
    ∃ idxs cur,
      runCalls (SmoothWeightRoundRobin.select intBits servers) k
          (SmoothWeightRoundRobin.init servers) = some (idxs, cur) ∧
      runCalls (SmoothWeightRoundRobin.call intBits servers) k
          (SmoothWeightRoundRobin.init servers)
        = some (idxs.map (fun i => (servers.getD i ⟨"", 0⟩).ip), cur) ∧
      cur.sum % 2 ^ intBits = 0 ∧
      ((∀ sv ∈ servers, 1 ≤ sv.weight) →
        (servers.length : Int) * totalWeight servers < 2 ^ (intBits - 1) → cur.sum = 0) := by
  obtain ⟨idxs, cur, hrun, _, hb, hsum⟩ :=
    SmoothWeightRoundRobin.run_zero_sum intBits servers hne k
  refine ⟨idxs, cur, hrun,
    SmoothWeightRoundRobin.call_trace intBits servers _ _ _ idxs hrun hb, ?_, ?_⟩
  · have hd : ((2 ^ intBits : Nat) : Int) ∣ cur.sum :=
      (ZMod.intCast_zmod_eq_zero_iff_dvd cur.sum (2 ^ intBits)).mp hsum
    have hd' : (2 : Int) ^ intBits ∣ cur.sum := by exact_mod_cast hd
    exact Int.emod_eq_zero_of_dvd hd'
  · intro hw hfit
    rw [SmoothWeightRoundRobin.run_eq_exact intBits servers hne hw hfit] at hrun
    obtain ⟨idxs', cur', hrun', inv⟩ := SmoothWeightRoundRobin.run_inv servers hne hw k
    rw [hrun] at hrun'
    simp only [Option.some.injEq, Prod.mk.injEq] at hrun'
    obtain ⟨e1, e2⟩ := hrun'
    subst e1; subst e2
    rw [list_sum_eq_range_sum, inv.len]
    exact SmoothWeightRoundRobin.runInv_sum servers k idxs cur inv

theorem smoothWeightRoundRobin_zero_sum_witness :
    ∃ idxs cur,
      runCalls (SmoothWeightRoundRobin.select 64 [⟨"A", -2⟩, ⟨"B", 0⟩, ⟨"C", 5⟩]) 3 [0, 0, 0]
        = some (idxs, cur) ∧
      runCalls (SmoothWeightRoundRobin.call 64 [⟨"A", -2⟩, ⟨"B", 0⟩, ⟨"C", 5⟩]) 3 [0, 0, 0]
        = some (idxs.map (fun i =>
            (([⟨"A", -2⟩, ⟨"B", 0⟩, ⟨"C", 5⟩] : List Server).getD i ⟨"", 0⟩).ip), cur) ∧
      cur.sum % 2 ^ 64 = 0 := by
  obtain ⟨idxs, cur, h1, h2, h3, _⟩ :=
    smoothWeightRoundRobin_zero_sum 64 [⟨"A", -2⟩, ⟨"B", 0⟩, ⟨"C", 5⟩] (by decide) 3
  exact ⟨idxs, cur, h1, h2, h3⟩

end LoadBalance
